import Mathlib

/-!
Verification development for the lock-trace static analyzer.

This file gives a shallow embedding of the two algorithmic engines of the
repository — the call-path tracer (`lock_trace/call_tracer.py`) and the
lock-context analyzer (`lock_trace/lock_analyzer.py`) — and proves the
frozen claims about them.

The external cscope symbol database is modelled as an oracle structure
`Cscope` supplying the caller/callee/definition queries; the Python code
treats it as an opaque collaborator, so this is the natural boundary.
Python `async`/`await` is purely sequential here and is erased.

The recursive searches in the Python code are depth-bounded: every
recursive call increases `depth` by 1 and returns immediately when
`depth > max_depth`.  The embedding makes this termination argument
explicit with a `fuel` parameter kept equal to `maxDepth + 1 - depth`;
when fuel is 0 the depth guard in the Python code would also have cut the
branch, so the fuel-0 branch returning `[]` coincides with the source.
The breadth-first loop of `get_function_depth_map` has no intrinsic bound
(it terminates only because a real code base has finitely many symbols),
so it is modelled with explicit fuel returning `Option`, `none` meaning
the iteration bound was exhausted.
-/

/-- One textual call relationship returned by the cscope collaborator
(`cscope_interface.FunctionCall`). -/
structure FunctionCall where
  function : String
  file : String
  line : Nat
  context : String
deriving DecidableEq

/-- A path in the call stack (`call_tracer.CallPath`). -/
structure CallPath where
  functions : List String
  depth : Nat
deriving DecidableEq

/-- The external symbol-database collaborator, at the interface boundary the
tracer and analyzer use: `get_functions_called_by`, `get_functions_calling`,
`get_callback_callers`, `find_function_definition`. -/
structure Cscope where
  calledBy : String → List FunctionCall
  calling : String → List FunctionCall
  callbackCallers : String → List FunctionCall
  findDef : String → Option FunctionCall

/-- Boolean prefix test on character lists. -/
def charsStartWith : List Char → List Char → Bool
  | [], _ => true
  | _ :: _, [] => false
  | a :: as, b :: bs => a == b && charsStartWith as bs

/-- Boolean substring test on character lists, modelling Python's
`needle in haystack` on strings. -/
def charsSubstr (needle : List Char) : List Char → Bool
  | [] => needle.isEmpty
  | haystack@(_ :: rest) =>
    charsStartWith needle haystack || charsSubstr needle rest

/-- Python's `sub in s` substring containment on strings. -/
def strContains (haystack needle : String) : Bool :=
  charsSubstr needle.toList haystack.toList

/-- Python's `s.startswith(pre)`. -/
def strStartsWith (s pre : String) : Bool :=
  charsStartWith pre.toList s.toList

/-- ASCII lower-casing of one character; the lock names and targets this is
applied to are ASCII, where Python's `str.lower` acts exactly like this. -/
def charLower (c : Char) : Char :=
  if 'A' ≤ c && c ≤ 'Z' then Char.ofNat (c.toNat + 32) else c

/-- Python's `s.lower()` on the ASCII strings used by the analyzer. -/
def strLower (s : String) : String :=
  String.mk (s.toList.map charLower)

/-- Code-point lexicographic `≤` on character lists, Python's string
comparison order. -/
def charsLe : List Char → List Char → Bool
  | [], _ => true
  | _ :: _, [] => false
  | a :: as, b :: bs => a < b || (a == b && charsLe as bs)

/-- Python's `s <= t` string comparison (code-point lexicographic). -/
def strLe (s t : String) : Bool :=
  charsLe s.toList t.toList

/-- `CallTracer._should_exclude_path`: a path is excluded when it contains a
function from `exclude_functions`, or a function whose resolved definition
file (when found and non-empty) contains an excluded directory name as a
substring. -/
def shouldExcludePath (cs : Cscope) (path : List String)
    (excludeFunctions excludeDirectories : List String) : Bool :=
  path.any (fun func => excludeFunctions.contains func) ||
  path.any (fun func =>
    match cs.findDef func with
    | some funcDef =>
        funcDef.file != "" &&
        excludeDirectories.any
          (fun excludedDir => strContains funcDef.file excludedDir)
    | none => false)

/-- Caller lookup used by `trace_callers`: enhanced callback search when
enabled, plain direct callers otherwise. -/
def callersOf (cs : Cscope) (enableCallbackSearch : Bool) (f : String) :
    List FunctionCall :=
  if enableCallbackSearch then cs.callbackCallers f else cs.calling f

/-- The recursive worker `_trace_recursive` inside `CallTracer.trace_callers`.
`path` plays the role of both the accumulated path and the `visited` set
(the Python set holds exactly the functions currently on the recursion
stack, i.e. the elements of `path`). -/
def traceCallersAux (cs : Cscope) (cb : Bool) (maxDepth : Nat)
    (ef ed : List String) :
    Nat → String → List String → Nat → List CallPath
  | 0, _, _, _ => []
  | fuel + 1, currentFunc, path, depth =>
    if depth > maxDepth || path.contains currentFunc then []
    else
      let currentPath := path ++ [currentFunc]
      let reversedPath := currentPath.reverse
      (if shouldExcludePath cs reversedPath ef ed then []
       else [CallPath.mk reversedPath depth]) ++
      (callersOf cs cb currentFunc).flatMap
        (fun caller =>
          traceCallersAux cs cb maxDepth ef ed fuel caller.function currentPath
            (depth + 1))

/-- `CallTracer.trace_callers`. -/
def trace_callers (cs : Cscope) (cb : Bool) (targetFunction : String)
    (maxDepth : Nat) (ef ed : List String) : List CallPath :=
  traceCallersAux cs cb maxDepth ef ed (maxDepth + 1) targetFunction [] 0

/-- The recursive worker inside `CallTracer.trace_callees`. -/
def traceCalleesAux (cs : Cscope) (maxDepth : Nat) (ef ed : List String) :
    Nat → String → List String → Nat → List CallPath
  | 0, _, _, _ => []
  | fuel + 1, currentFunc, path, depth =>
    if depth > maxDepth || path.contains currentFunc then []
    else
      let currentPath := path ++ [currentFunc]
      (if shouldExcludePath cs currentPath ef ed then []
       else [CallPath.mk currentPath depth]) ++
      (cs.calledBy currentFunc).flatMap
        (fun callee =>
          traceCalleesAux cs maxDepth ef ed fuel callee.function currentPath
            (depth + 1))

/-- `CallTracer.trace_callees`. -/
def trace_callees (cs : Cscope) (sourceFunction : String) (maxDepth : Nat)
    (ef ed : List String) : List CallPath :=
  traceCalleesAux cs maxDepth ef ed (maxDepth + 1) sourceFunction [] 0

/-- The recursive worker `_find_paths_recursive` inside
`CallTracer.find_call_paths`.  Each branch carries its own copy of the
visited set; `visited.copy()` at each recursive call is modelled by passing
the extended list `currentFunc :: visited` by value. -/
def findPathsAux (cs : Cscope) (maxDepth : Nat) (target : String) :
    Nat → String → List String → Nat → List String → List CallPath
  | 0, _, _, _, _ => []
  | fuel + 1, currentFunc, path, depth, visited =>
    if depth > maxDepth then []
    else if currentFunc == target then [CallPath.mk (path ++ [currentFunc]) depth]
    else if visited.contains currentFunc then []
    else
      (cs.calledBy currentFunc).flatMap
        (fun callee =>
          findPathsAux cs maxDepth target fuel callee.function
            (path ++ [currentFunc]) (depth + 1) (currentFunc :: visited))

/-- `CallTracer.find_call_paths`. -/
def find_call_paths (cs : Cscope) (fromFunction toFunction : String)
    (maxDepth : Nat) : List CallPath :=
  findPathsAux cs maxDepth toFunction (maxDepth + 1) fromFunction [] 0 []

/-- Association-list lookup modelling `function in depth_map` /
`depth_map[function]` on the Python dict. -/
def lookupDepth : List (String × Nat) → String → Option Nat
  | [], _ => none
  | (g, d) :: rest, f => if g == f then some d else lookupDepth rest f

/-- `depth_map[function] = depth` on a Python dict: replaces the value in
place when the key exists (keeping key order), appends otherwise. -/
def setDepth : List (String × Nat) → String → Nat → List (String × Nat)
  | [], f, d => [(f, d)]
  | (g, e) :: rest, f, d =>
    if g == f then (f, d) :: rest else (g, e) :: setDepth rest f d

/-- The `while queue` loop of `CallTracer.get_function_depth_map`, with
explicit iteration fuel (the Python loop has no intrinsic bound; it
terminates because a code base has finitely many symbols). -/
def depthMapLoop (cs : Cscope) :
    Nat → List (String × Nat) → List (String × Nat) →
    Option (List (String × Nat))
  | 0, _, _ => none
  | _ + 1, [], depthMap => some depthMap
  | fuel + 1, (function, depth) :: queue, depthMap =>
    match lookupDepth depthMap function with
    | some d =>
      if d ≤ depth then depthMapLoop cs fuel queue depthMap
      else
        depthMapLoop cs fuel
          (queue ++ (cs.calledBy function).map (fun c => (c.function, depth + 1)))
          (setDepth depthMap function depth)
    | none =>
      depthMapLoop cs fuel
        (queue ++ (cs.calledBy function).map (fun c => (c.function, depth + 1)))
        (setDepth depthMap function depth)

/-- `CallTracer.get_function_depth_map`, fuelled. -/
def get_function_depth_map (cs : Cscope) (rootFunctions : List String)
    (fuel : Nat) : Option (List (String × Nat)) :=
  depthMapLoop cs fuel (rootFunctions.map (fun f => (f, 0))) []

/-- Names of the direct callees of a function. -/
def calleeNames (cs : Cscope) (f : String) : List String :=
  (cs.calledBy f).map FunctionCall.function

/-- `ReachN cs roots d f`: `f` is reachable from some root in exactly `d`
callee edges. -/
def ReachN (cs : Cscope) (roots : List String) : Nat → String → Prop
  | 0, f => f ∈ roots
  | d + 1, f => ∃ g, ReachN cs roots d g ∧ f ∈ calleeNames cs g

/-- The grouping pass of `get_unique_call_chains` /
`get_unique_callee_chains`: a Python dict keyed by the
`" -> ".join(functions)` string, keeping per key the longest path.  Python
dicts preserve first-insertion key order and in-place value replacement,
modelled by an ordered association list. -/
def groupPaths : List CallPath → List (String × CallPath) →
    List (String × CallPath)
  | [], acc => acc
  | p :: rest, acc =>
    let pathStr := String.intercalate " -> " p.functions
    match acc.find? (fun kv => kv.1 == pathStr) with
    | none => groupPaths rest (acc ++ [(pathStr, p)])
    | some kv =>
      if p.functions.length > kv.2.functions.length then
        groupPaths rest
          (acc.map (fun kv' => if kv'.1 == pathStr then (pathStr, p) else kv'))
      else groupPaths rest acc

/-- Descending-length comparison used for
`sorted(path_groups.values(), key=lambda p: len(p.functions), reverse=True)`.
Python's sort is stable; Mathlib's `insertionSort` is the same stable sort
for a total preorder. -/
def lenGe (p q : CallPath) : Prop :=
  q.functions.length ≤ p.functions.length

instance : DecidableRel lenGe := fun p q =>
  inferInstanceAs (Decidable (q.functions.length ≤ p.functions.length))

instance : IsTotal CallPath lenGe :=
  ⟨fun p q => Nat.le_total q.functions.length p.functions.length⟩

instance : IsTrans CallPath lenGe :=
  ⟨fun _ _ _ h h' => Nat.le_trans h' h⟩

/-- Python's `existing_functions[-len(path_functions):] == path_functions`
suffix test (the `len(q)[-0:]` edge case yields the whole list). -/
def pySuffixEq (p q : List String) : Bool :=
  if p.length == 0 then q == [] else q.drop (q.length - p.length) == p

/-- Python's `existing_functions[: len(path_functions)] == path_functions`
prefix test. -/
def pyPrefixEq (p q : List String) : Bool :=
  q.take p.length == p

/-- The greedy subsumption filter shared by `get_unique_call_chains` and
`get_unique_callee_chains`: keep a path only when no already-kept strictly
longer path subsumes it under `isSub`. -/
def keepLongest (isSub : List String → List String → Bool) :
    List CallPath → List CallPath → List CallPath
  | acc, [] => acc
  | acc, p :: rest =>
    let isSubset := acc.any (fun existing =>
      decide (p.functions.length < existing.functions.length) &&
      isSub p.functions existing.functions)
    keepLongest isSub (if isSubset then acc else acc ++ [p]) rest

/-- First function name of a path, `p.functions[0] if p.functions else ""`. -/
def firstFn (p : CallPath) : String := p.functions.headD ""

/-- The final deterministic ordering
`key=lambda p: (len(p.functions), p.functions[0] if p.functions else "")`,
ascending tuple comparison. -/
def finalLe (p q : CallPath) : Prop :=
  p.functions.length < q.functions.length ∨
    (p.functions.length = q.functions.length ∧ strLe (firstFn p) (firstFn q) = true)

instance : DecidableRel finalLe := fun p q =>
  inferInstanceAs (Decidable (p.functions.length < q.functions.length ∨
    (p.functions.length = q.functions.length ∧ strLe (firstFn p) (firstFn q) = true)))

/-- `CallTracer.get_unique_call_chains`. -/
def get_unique_call_chains (cs : Cscope) (cb : Bool) (targetFunction : String)
    (maxDepth : Nat) (ef ed : List String) : List CallPath :=
  let allPaths := trace_callers cs cb targetFunction maxDepth ef ed
  let pathGroups := groupPaths allPaths []
  let sortedPaths := List.insertionSort lenGe (pathGroups.map Prod.snd)
  let uniquePaths := keepLongest pySuffixEq [] sortedPaths
  List.insertionSort finalLe uniquePaths

/-- `CallTracer.get_unique_callee_chains`. -/
def get_unique_callee_chains (cs : Cscope) (sourceFunction : String)
    (maxDepth : Nat) (ef ed : List String) : List CallPath :=
  let allPaths := trace_callees cs sourceFunction maxDepth ef ed
  let pathGroups := groupPaths allPaths []
  let sortedPaths := List.insertionSort lenGe (pathGroups.map Prod.snd)
  let uniquePaths := keepLongest pyPrefixEq [] sortedPaths
  List.insertionSort finalLe uniquePaths

/-- Types of locks (`lock_analyzer.LockType`). -/
inductive LockType where
  | SPINLOCK
  | MUTEX
  | RWLOCK
  | RCU
  | SEMAPHORE
  | CUSTOM
deriving DecidableEq

/-- The two operation kinds, the `"acquire"` / `"release"` keys of
`LOCK_PATTERNS`. -/
inductive OpKind where
  | acquire
  | release
deriving DecidableEq

/-- A lock operation (`lock_analyzer.LockOperation`). -/
structure LockOperation where
  lock_name : String
  lock_type : LockType
  operation : OpKind
  function : String
  file : String
  line : Nat
  context : String
deriving DecidableEq

/-- Python `set.add`: sets are modelled as duplicate-free lists, membership
being the set semantics; `add` appends when absent. -/
def pysetAdd (s : List String) (x : String) : List String :=
  if s.contains x then s else s ++ [x]

/-- Python `set.discard`. -/
def pysetDiscard (s : List String) (x : String) : List String :=
  s.filter (fun y => y != x)

/-- Lock context information for a function call
(`lock_analyzer.LockContext`); `held_locks` is a Python `set`, modelled as
a duplicate-free list. -/
structure LockContext where
  function : String
  held_locks : List String
  call_path : List String
  lock_operations : List LockOperation
deriving DecidableEq

/-- Every regex in `LOCK_PATTERNS` has the shape
`(?<!NLB)LIT\s*\(` — an optional negative lookbehind literal, a literal
function name, optional whitespace, an opening parenthesis. -/
structure LockPat where
  nlb : String
  lit : String

/-- Python `\s` on the inputs in question (ASCII whitespace). -/
def isPyWs (c : Char) : Bool :=
  c == ' ' || c == '\t' || c == '\n' || c == '\r' || c == '\x0b' || c == '\x0c'

/-- Does the character list start with `lit`, then whitespace, then `(`?
(Maximal munch on `\s*` is exact here since `(` is not whitespace.) -/
def litWsParen (lit s : List Char) : Bool :=
  match lit, s with
  | [], _ => (s.dropWhile isPyWs).headD ' ' == '('
  | _ :: _, [] => false
  | a :: as, b :: bs => a == b && litWsParen as bs

/-- Does the character list end with the given suffix? -/
def charsEndWith (suffix s : List Char) : Bool :=
  charsStartWith suffix.reverse s.reverse

/-- Worker for `patSearch`: try every position left to right; `pre` is the
already-scanned text, consulted by the negative lookbehind. -/
def patSearchAux (p : LockPat) : List Char → List Char → Bool
  | _, [] => false
  | pre, s@(c :: rest) =>
    ((p.nlb.toList.isEmpty || !(charsEndWith p.nlb.toList pre)) &&
     litWsParen p.lit.toList s) ||
    patSearchAux p (pre ++ [c]) rest

/-- `re.compile(pattern).search(text)` for the pattern shapes occurring in
`LOCK_PATTERNS`. -/
def patSearch (p : LockPat) (text : String) : Bool :=
  patSearchAux p [] text.toList

/-- The `LOCK_PATTERNS` table of `LockAnalyzer`, flattened in Python dict
iteration (insertion) order: for each lock type, the `"acquire"` row then
the `"release"` row. -/
def LOCK_PATTERNS : List (LockType × OpKind × List LockPat) :=
  [ (LockType.SPINLOCK, OpKind.acquire,
      [⟨"", "spin_lock"⟩, ⟨"", "spin_lock_irq"⟩, ⟨"", "spin_lock_irqsave"⟩,
       ⟨"", "spin_lock_bh"⟩]),
    (LockType.SPINLOCK, OpKind.release,
      [⟨"", "spin_unlock"⟩, ⟨"", "spin_unlock_irq"⟩,
       ⟨"", "spin_unlock_irqrestore"⟩, ⟨"", "spin_unlock_bh"⟩]),
    (LockType.MUTEX, OpKind.acquire,
      [⟨"", "mutex_lock"⟩, ⟨"", "mutex_lock_interruptible"⟩,
       ⟨"", "mutex_trylock"⟩]),
    (LockType.MUTEX, OpKind.release, [⟨"", "mutex_unlock"⟩]),
    (LockType.RWLOCK, OpKind.acquire,
      [⟨"rcu_", "read_lock"⟩, ⟨"rcu_", "write_lock"⟩,
       ⟨"rcu_", "read_lock_irq"⟩, ⟨"rcu_", "write_lock_irq"⟩,
       ⟨"rcu_", "read_lock_bh"⟩, ⟨"rcu_", "write_lock_bh"⟩]),
    (LockType.RWLOCK, OpKind.release,
      [⟨"rcu_", "read_unlock"⟩, ⟨"rcu_", "write_unlock"⟩,
       ⟨"rcu_", "read_unlock_irq"⟩, ⟨"rcu_", "write_unlock_irq"⟩,
       ⟨"rcu_", "read_unlock_bh"⟩, ⟨"rcu_", "write_unlock_bh"⟩]),
    (LockType.RCU, OpKind.acquire,
      [⟨"", "rcu_read_lock"⟩, ⟨"", "rcu_read_lock_bh"⟩]),
    (LockType.RCU, OpKind.release,
      [⟨"", "rcu_read_unlock"⟩, ⟨"", "rcu_read_unlock_bh"⟩]),
    (LockType.CUSTOM, OpKind.acquire,
      [⟨"", "rtnl_lock"⟩, ⟨"", "rtnl_trylock"⟩, ⟨"", "rtnl_net_lock"⟩,
       ⟨"", "rtnl_nets_lock"⟩, ⟨"", "netdev_lock_ops"⟩,
       ⟨"", "netlink_table_grab"⟩, ⟨"", "genl_lock"⟩]),
    (LockType.CUSTOM, OpKind.release,
      [⟨"", "rtnl_unlock"⟩, ⟨"", "rtnl_net_unlock"⟩, ⟨"", "rtnl_nets_unlock"⟩,
       ⟨"", "netdev_unlock_ops"⟩, ⟨"", "netlink_table_ungrab"⟩,
       ⟨"", "genl_unlock"⟩]) ]

/-- `LOCK_MATCHING_CONFIG`: lock-name substring patterns paired with the
generic target aliases they accept. -/
def LOCK_MATCHING_CONFIG : List (List String × List String) :=
  [ (["rcu_read_lock", "rcu_read_unlock"], ["rcu", "rcu_lock"]),
    (["rtnl"], ["rtnl", "rtnl_lock"]),
    (["netdev_"], ["netdev", "netdev_lock"]),
    (["spin_lock", "spin_unlock"], ["spin", "spin_lock", "spinlock"]),
    (["mutex_lock", "mutex_unlock"], ["mutex", "mutex_lock"]) ]

/-- Python `[a-zA-Z_]`. -/
def identStart (c : Char) : Bool := c.isAlpha || c == '_'

/-- Python `[a-zA-Z0-9_]`. -/
def identChar (c : Char) : Bool := c.isAlphanum || c == '_'

/-- Try regex `\(&?([a-zA-Z_][a-zA-Z0-9_]*)\)` at the current position,
returning group 1.  The greedy identifier run is exact because an
identifier character can never equal `)`. -/
def matchParenIdent : List Char → Option String
  | '(' :: rest =>
    let rest' := match rest with
      | '&' :: r => r
      | r => r
    (match rest' with
     | c :: cs =>
       if identStart c then
         let run := c :: cs.takeWhile identChar
         let after := cs.dropWhile identChar
         match after with
         | ')' :: _ => some (String.mk run)
         | _ => none
       else none
     | [] => none)
  | _ => none

/-- `re.search(r"\(&?([a-zA-Z_][a-zA-Z0-9_]*)\)", context)`: leftmost
match, group 1. -/
def searchParenIdent : List Char → Option String
  | [] => none
  | s@(_ :: rest) =>
    match matchParenIdent s with
    | some r => some r
    | none => searchParenIdent rest

/-- Try regex `([a-zA-Z_][a-zA-Z0-9_]*)\s*\(` at the current position,
returning group 1 (maximal munch is exact at each position). -/
def matchIdentParen : List Char → Option String
  | c :: cs =>
    if identStart c then
      let run := c :: cs.takeWhile identChar
      let after := (cs.dropWhile identChar).dropWhile isPyWs
      match after with
      | '(' :: _ => some (String.mk run)
      | _ => none
    else none
  | [] => none

/-- `re.search(r"([a-zA-Z_][a-zA-Z0-9_]*)\s*\(", context)`: leftmost match,
group 1. -/
def searchIdentParen : List Char → Option String
  | [] => none
  | s@(_ :: rest) =>
    match matchIdentParen s with
    | some r => some r
    | none => searchIdentParen rest

/-- `LockAnalyzer._extract_lock_name`. -/
def extract_lock_name (context functionName : String) : String :=
  let functionNamePrefixes := ["rcu_read_", "rtnl", "netdev_", "netlink_", "genl"]
  let fromRegexes :=
    match searchParenIdent context.toList with
    | some name => name
    | none =>
      match searchIdentParen context.toList with
      | some name => if name != functionName then name else functionName
      | none => functionName
  if functionNamePrefixes.any (fun p => strStartsWith functionName p) then
    if strStartsWith functionName "rtnl" || strStartsWith functionName "netdev_" then
      if strContains functionName "lock" || strContains functionName "unlock" then
        functionName
      else fromRegexes
    else functionName
  else fromRegexes

/-- `LockAnalyzer._identify_lock_operation`: one operation per
(lock type, operation kind) row whose pattern list has a regex matching the
call-site context or the callee name (the inner `break` makes multiple
pattern hits within one row emit a single operation). -/
def identify_lock_operation (call : FunctionCall) (callerFunction : String) :
    List LockOperation :=
  LOCK_PATTERNS.flatMap (fun row =>
    if (row.2.2).any (fun p => patSearch p call.context || patSearch p call.function)
    then
      [{ lock_name := extract_lock_name call.context call.function,
         lock_type := row.1,
         operation := row.2.1,
         function := callerFunction,
         file := call.file,
         line := call.line,
         context := call.context }]
    else [])

/-- `LockAnalyzer.find_lock_operations`. -/
def find_lock_operations (cs : Cscope) (function : String) :
    List LockOperation :=
  (cs.calledBy function).flatMap
    (fun call => identify_lock_operation call function)

/-- `LockAnalyzer._filter_operations_before_call`: keep only operations on
lines strictly before the (first recorded) call site of the target; when no
call site is recorded, fall back to all operations unchanged. -/
def filter_operations_before_call (cs : Cscope)
    (callerFunction targetFunction : String)
    (operations : List LockOperation) : List LockOperation :=
  match (cs.calledBy callerFunction).find?
      (fun call => call.function == targetFunction) with
  | none => operations
  | some call => operations.filter (fun op => decide (op.line < call.line))

/-- `LockAnalyzer._lock_matches_target`. -/
def lock_matches_target (lockName : String) (targetLocks : List String) :
    Bool :=
  targetLocks.contains lockName ||
  LOCK_MATCHING_CONFIG.any (fun cfg =>
    cfg.1.any (fun pat => strContains (strLower lockName) pat) &&
    targetLocks.any (fun target => cfg.2.contains (strLower target)))

/-- Python truthiness of the `target_locks` argument: `None` and the empty
list both mean "no filter". -/
def hasTargetFilter : Option (List String) → Bool
  | some (_ :: _) => true
  | _ => false

/-- The per-operation state used inside the walk of `_analyze_path_locks`:
`held_locks`, `function_acquires`, `function_releases`,
`protected_by_locks` (all Python sets, modelled as duplicate-free lists). -/
structure OpFoldState where
  held_locks : List String
  function_acquires : List String
  function_releases : List String
  protected_by_locks : List String
deriving DecidableEq

/-- The functions of a call path that the walk of `_analyze_path_locks`
visits: everything but the final (target) function. -/
def walkedFunctions (p : CallPath) : List String :=
  if p.functions.length > 1 then p.functions.dropLast else []

/-- The target function of a call path, `functions[-1]` (empty-path
fallback `""`). -/
def pathTarget (p : CallPath) : String :=
  p.functions.getLast?.getD ""

/-- Does an operation pass the target filter of the walk? -/
def opMatchesTarget (targetLocks : Option (List String))
    (op : LockOperation) : Bool :=
  !hasTargetFilter targetLocks ||
  lock_matches_target op.lock_name (targetLocks.getD [])

/-- The body of the `for op in operations` loop in `_analyze_path_locks`:
operations matching the target filter (or all operations when no filter is
given) update the held-lock set, the per-function acquire/release sets, and
the protection-evidence set. -/
def applyOp (targetLocks : Option (List String)) (st : OpFoldState)
    (op : LockOperation) : OpFoldState :=
  let matchesTarget := opMatchesTarget targetLocks op
  if matchesTarget then
    match op.operation with
    | OpKind.acquire =>
      { st with
        held_locks := pysetAdd st.held_locks op.lock_name,
        function_acquires := pysetAdd st.function_acquires op.lock_name,
        protected_by_locks := pysetAdd st.protected_by_locks op.lock_name }
    | OpKind.release =>
      { st with
        held_locks := pysetDiscard st.held_locks op.lock_name,
        function_releases := pysetAdd st.function_releases op.lock_name }
  else st

/-- The accumulated walk state of `_analyze_path_locks`. -/
structure AnalyzerState where
  held_locks : List String
  protected_by_locks : List String
  all_operations : List LockOperation
deriving DecidableEq

/-- One iteration of the `for i, function in enumerate(path_functions)`
loop of `_analyze_path_locks`: enumerate the function's lock operations,
filter by call order when this function is the direct caller of the
target, run the operation loop, then add locks with a complete
acquire+release section in this function to the protection evidence. -/
def analyzeFunctionStep (cs : Cscope) (targetLocks : Option (List String))
    (isDirectCaller : Bool) (targetFunction : String) (function : String)
    (st : AnalyzerState) : AnalyzerState :=
  let operations := find_lock_operations cs function
  let originalOperations := operations
  let operations :=
    if isDirectCaller then
      filter_operations_before_call cs function targetFunction operations
    else operations
  let folded := operations.foldl (applyOp targetLocks)
    { held_locks := st.held_locks,
      function_acquires := [],
      function_releases := [],
      protected_by_locks := st.protected_by_locks }
  { held_locks := folded.held_locks,
    protected_by_locks :=
      folded.function_acquires.foldl
        (fun pr lock =>
          if folded.function_releases.contains lock then pysetAdd pr lock
          else pr)
        folded.protected_by_locks,
    all_operations := st.all_operations ++ originalOperations }

/-- The walk over `path_functions` in `_analyze_path_locks`; the last
element of `path_functions` is the direct caller of the target and gets the
call-order filter. -/
def analyzeWalk (cs : Cscope) (targetLocks : Option (List String))
    (targetFunction : String) : List String → AnalyzerState → AnalyzerState
  | [], st => st
  | [function], st =>
    analyzeFunctionStep cs targetLocks true targetFunction function st
  | function :: g :: rest, st =>
    analyzeWalk cs targetLocks targetFunction (g :: rest)
      (analyzeFunctionStep cs targetLocks false targetFunction function st)

/-- The state of `_analyze_path_locks` after the walk, before the
protection-evidence fallback. -/
def analyze_path_state (cs : Cscope) (callPath : CallPath)
    (targetLocks : Option (List String)) : AnalyzerState :=
  analyzeWalk cs targetLocks (pathTarget callPath) (walkedFunctions callPath)
    { held_locks := [], protected_by_locks := [], all_operations := [] }

/-- `LockAnalyzer._analyze_path_locks`: the walk followed by the
protection-evidence fallback, which fires only for an unfiltered query with
an empty held-set and non-empty evidence. -/
def analyze_path_locks (cs : Cscope) (callPath : CallPath)
    (targetLocks : Option (List String)) : LockContext :=
  let st := analyze_path_state cs callPath targetLocks
  let heldLocks :=
    if st.held_locks.isEmpty && !st.protected_by_locks.isEmpty &&
        !hasTargetFilter targetLocks then
      st.protected_by_locks
    else st.held_locks
  { function := callPath.functions.getLast?.getD "",
    held_locks := heldLocks,
    call_path := callPath.functions,
    lock_operations := st.all_operations }

/-- The flat list of operations that participate in held-lock state
tracking along a walk: all operations of each walked function, with the
direct caller of the target (the last walked function) filtered by call
order. -/
def effectiveOps (cs : Cscope) (targetFunction : String) :
    List String → List LockOperation
  | [] => []
  | [function] =>
    filter_operations_before_call cs function targetFunction
      (find_lock_operations cs function)
  | function :: g :: rest =>
    find_lock_operations cs function ++ effectiveOps cs targetFunction (g :: rest)

/-- Held-lock transition of a single operation, ignoring the evidence
bookkeeping. -/
def heldStep (targetLocks : Option (List String)) (held : List String)
    (op : LockOperation) : List String :=
  if opMatchesTarget targetLocks op then
    match op.operation with
    | OpKind.acquire => pysetAdd held op.lock_name
    | OpKind.release => pysetDiscard held op.lock_name
  else held

/-- Is the operation an acquire? -/
def isAcquireOp (op : LockOperation) : Bool :=
  match op.operation with
  | OpKind.acquire => true
  | OpKind.release => false

/-- The names of the acquire operations that pass the target filter: the
protection evidence accumulated from a list of operations. -/
def acquiredNames (targetLocks : Option (List String))
    (ops : List LockOperation) : List String :=
  (ops.filter (fun op =>
    opMatchesTarget targetLocks op && isAcquireOp op)).map
    LockOperation.lock_name

/-- One step of the caller relation used by `trace_callers`: `b` is among
the (callback-aware) callers of `a`. -/
def callerEdge (cs : Cscope) (cb : Bool) (a b : String) : Prop :=
  b ∈ (callersOf cs cb a).map FunctionCall.function

/-- One step of the callee relation used by `trace_callees`. -/
def calleeEdge (cs : Cscope) (a b : String) : Prop :=
  b ∈ (cs.calledBy a).map FunctionCall.function

instance (cs : Cscope) (cb : Bool) : DecidableRel (callerEdge cs cb) :=
  fun a b =>
    inferInstanceAs (Decidable (b ∈ (callersOf cs cb a).map FunctionCall.function))

instance (cs : Cscope) : DecidableRel (calleeEdge cs) :=
  fun a b =>
    inferInstanceAs (Decidable (b ∈ (cs.calledBy a).map FunctionCall.function))

/-- Example database: `X` calls `A` calls `B` (so the caller chain of `B`
is `X -> A -> B`), with definitions in `net/core/dev.c`. -/
def exCsT : Cscope where
  calledBy := fun f => if f == "A" then [⟨"B", "a.c", 15, "B();"⟩] else []
  calling := fun f =>
    if f == "B" then [⟨"A", "a.c", 15, "B();"⟩]
    else if f == "A" then [⟨"X", "x.c", 7, "A();"⟩]
    else []
  callbackCallers := fun f =>
    if f == "B" then [⟨"A", "a.c", 15, "B();"⟩]
    else if f == "A" then [⟨"X", "x.c", 7, "A();"⟩]
    else []
  findDef := fun f =>
    if f == "A" then some ⟨"A", "net/core/dev.c", 1, "int A()"⟩
    else if f == "B" then some ⟨"B", "net/core/dev.c", 9, "int B()"⟩
    else none

/-- Example database with a two-node call cycle `A` calls `B` calls `A`. -/
def exCsCycle : Cscope where
  calledBy := fun f =>
    if f == "A" then [⟨"B", "c.c", 1, "B();"⟩]
    else if f == "B" then [⟨"A", "c.c", 2, "A();"⟩]
    else []
  calling := fun f =>
    if f == "A" then [⟨"B", "c.c", 2, "A();"⟩]
    else if f == "B" then [⟨"A", "c.c", 1, "B();"⟩]
    else []
  callbackCallers := fun f =>
    if f == "A" then [⟨"B", "c.c", 2, "A();"⟩]
    else if f == "B" then [⟨"A", "c.c", 1, "B();"⟩]
    else []
  findDef := fun _ => none

/-- Example database for the unfiltered rtnl scenario: `A` performs
`rtnl_lock()` at line 10 and `rtnl_unlock()` at line 20, then calls `B`
at line 30. -/
def exCsRtnl : Cscope where
  calledBy := fun f =>
    if f == "A" then
      [⟨"rtnl_lock", "a.c", 10, "rtnl_lock();"⟩,
       ⟨"rtnl_unlock", "a.c", 20, "rtnl_unlock();"⟩,
       ⟨"B", "a.c", 30, "B();"⟩]
    else []
  calling := fun _ => []
  callbackCallers := fun _ => []
  findDef := fun _ => none

/-- Example database for the call-order scenario: `A` calls `B` at line 15
and `spin_lock(&M)` at line 20, after the call to `B`. -/
def exCsSpinAfter : Cscope where
  calledBy := fun f =>
    if f == "A" then
      [⟨"B", "a.c", 15, "B();"⟩,
       ⟨"spin_lock", "a.c", 20, "spin_lock(&M);"⟩]
    else []
  calling := fun _ => []
  callbackCallers := fun _ => []
  findDef := fun _ => none

/-- Example database with a self-contained critical section: `A` performs
`spin_lock(&L)` at line 10 and `spin_unlock(&L)` at line 20, then calls
`B` at line 30. -/
def exCsPairedSpin : Cscope where
  calledBy := fun f =>
    if f == "A" then
      [⟨"spin_lock", "a.c", 10, "spin_lock(&L);"⟩,
       ⟨"spin_unlock", "a.c", 20, "spin_unlock(&L);"⟩,
       ⟨"B", "a.c", 30, "B();"⟩]
    else []
  calling := fun _ => []
  callbackCallers := fun _ => []
  findDef := fun _ => none

/-- Example database where `A` reaches `B` only through a function pointer:
no recorded call site of `B` inside `A`, only a lock operation after the
actual point of invocation. -/
def exCsNoCallsite : Cscope where
  calledBy := fun f =>
    if f == "A" then [⟨"spin_lock", "a.c", 20, "spin_lock(&M);"⟩] else []
  calling := fun _ => []
  callbackCallers := fun _ => []
  findDef := fun _ => none

/-- Example database where `B` has two independent caller chains of
different lengths: callers of `B` are `A` (itself called by `Y`) and `X`. -/
def exCsFork : Cscope where
  calledBy := fun f =>
    if f == "B" then [⟨"A", "b.c", 3, "A();"⟩, ⟨"X", "b.c", 4, "X();"⟩]
    else if f == "A" then [⟨"Y", "a.c", 5, "Y();"⟩]
    else []
  calling := fun f =>
    if f == "B" then [⟨"A", "a.c", 8, "B();"⟩, ⟨"X", "x.c", 2, "B();"⟩]
    else if f == "A" then [⟨"Y", "y.c", 4, "A();"⟩]
    else []
  callbackCallers := fun f =>
    if f == "B" then [⟨"A", "a.c", 8, "B();"⟩, ⟨"X", "x.c", 2, "B();"⟩]
    else if f == "A" then [⟨"Y", "y.c", 4, "A();"⟩]
    else []
  findDef := fun _ => none

/-!  Inversion lemmas for the recursive searches. -/

/-- Membership in `traceCallersAux` comes either from the path emitted at
this node or from a recursive call on one of its callers. -/
theorem traceCallersAux_mem_cases {cs : Cscope} {cb : Bool} {maxD : Nat}
    {ef ed : List String} {fuel : Nat} {current : String} {path : List String}
    {depth : Nat} {p : CallPath}
    (hp : p ∈ traceCallersAux cs cb maxD ef ed (fuel + 1) current path depth) :
    (depth ≤ maxD ∧ current ∉ path ∧
      shouldExcludePath cs (path ++ [current]).reverse ef ed = false ∧
      p = CallPath.mk (path ++ [current]).reverse depth) ∨
    (depth ≤ maxD ∧ current ∉ path ∧
      ∃ c ∈ callersOf cs cb current,
        p ∈ traceCallersAux cs cb maxD ef ed fuel c.function
          (path ++ [current]) (depth + 1)) := by
  rw [traceCallersAux] at hp
  by_cases hguard : (decide (depth > maxD) || path.contains current) = true
  · rw [if_pos hguard] at hp
    cases hp
  · rw [if_neg hguard] at hp
    have hdep' : depth ≤ maxD := by
      by_contra hgt
      exact hguard (by simp [Nat.lt_of_not_le hgt])
    have hmem' : current ∉ path := by
      intro hc
      exact hguard (by simp [hc])
    rcases List.mem_append.mp hp with h | h
    · left
      refine ⟨hdep', hmem', ?_⟩
      by_cases hex :
          shouldExcludePath cs (path ++ [current]).reverse ef ed = true
      · rw [if_pos hex] at h; cases h
      · rw [if_neg hex] at h
        exact ⟨Bool.eq_false_iff.mpr hex, List.mem_singleton.mp h⟩
    · right
      exact ⟨hdep', hmem', List.mem_flatMap.mp h⟩

/-- Membership in `traceCalleesAux` comes either from the path emitted at
this node or from a recursive call on one of its callees. -/
theorem traceCalleesAux_mem_cases {cs : Cscope} {maxD : Nat}
    {ef ed : List String} {fuel : Nat} {current : String} {path : List String}
    {depth : Nat} {p : CallPath}
    (hp : p ∈ traceCalleesAux cs maxD ef ed (fuel + 1) current path depth) :
    (depth ≤ maxD ∧ current ∉ path ∧
      shouldExcludePath cs (path ++ [current]) ef ed = false ∧
      p = CallPath.mk (path ++ [current]) depth) ∨
    (depth ≤ maxD ∧ current ∉ path ∧
      ∃ c ∈ cs.calledBy current,
        p ∈ traceCalleesAux cs maxD ef ed fuel c.function
          (path ++ [current]) (depth + 1)) := by
  rw [traceCalleesAux] at hp
  by_cases hguard : (decide (depth > maxD) || path.contains current) = true
  · rw [if_pos hguard] at hp
    cases hp
  · rw [if_neg hguard] at hp
    have hdep' : depth ≤ maxD := by
      by_contra hgt
      exact hguard (by simp [Nat.lt_of_not_le hgt])
    have hmem' : current ∉ path := by
      intro hc
      exact hguard (by simp [hc])
    rcases List.mem_append.mp hp with h | h
    · left
      refine ⟨hdep', hmem', ?_⟩
      by_cases hex : shouldExcludePath cs (path ++ [current]) ef ed = true
      · rw [if_pos hex] at h; cases h
      · rw [if_neg hex] at h
        exact ⟨Bool.eq_false_iff.mpr hex, List.mem_singleton.mp h⟩
    · right
      exact ⟨hdep', hmem', List.mem_flatMap.mp h⟩

/-- Membership in `findPathsAux` comes either from reaching the target at
this node or from a recursive call on one of its callees. -/
theorem findPathsAux_mem_cases {cs : Cscope} {maxD : Nat} {target : String}
    {fuel : Nat} {current : String} {path : List String} {depth : Nat}
    {visited : List String} {p : CallPath}
    (hp : p ∈ findPathsAux cs maxD target (fuel + 1) current path depth visited) :
    (depth ≤ maxD ∧ current = target ∧
      p = CallPath.mk (path ++ [current]) depth) ∨
    (depth ≤ maxD ∧ current ≠ target ∧ current ∉ visited ∧
      ∃ c ∈ cs.calledBy current,
        p ∈ findPathsAux cs maxD target fuel c.function (path ++ [current])
          (depth + 1) (current :: visited)) := by
  rw [findPathsAux] at hp
  by_cases hdep : depth > maxD
  · rw [if_pos hdep] at hp
    cases hp
  · rw [if_neg hdep] at hp
    have hdep' : depth ≤ maxD := Nat.le_of_not_lt hdep
    by_cases htgt : (current == target) = true
    · rw [if_pos htgt] at hp
      exact Or.inl ⟨hdep', eq_of_beq htgt, List.mem_singleton.mp hp⟩
    · rw [if_neg htgt] at hp
      have htgt' : current ≠ target := by
        intro h
        exact htgt (by simp [h])
      by_cases hvis : (visited.contains current) = true
      · rw [if_pos hvis] at hp
        cases hp
      · rw [if_neg hvis] at hp
        have hvis' : current ∉ visited := by
          intro h
          exact hvis (by simp [h])
        exact Or.inr ⟨hdep', htgt', hvis', List.mem_flatMap.mp hp⟩

/-- Every path produced by `traceCallersAux` is emitted at depth at most
`maxD` and extends the accumulated path by exactly one function per level:
its length is bounded by `maxD + 1` when the invariant
`path.length = depth` holds. -/
theorem traceCallersAux_length_le {cs : Cscope} {cb : Bool} {maxD : Nat}
    {ef ed : List String} :
    ∀ (fuel : Nat) (current : String) (path : List String) (depth : Nat),
      path.length = depth →
      ∀ p ∈ traceCallersAux cs cb maxD ef ed fuel current path depth,
        p.functions.length ≤ maxD + 1 := by
  intro fuel
  induction fuel with
  | zero =>
    intro current path depth _ p hp
    rw [traceCallersAux] at hp
    cases hp
  | succ n ih =>
    intro current path depth hlen p hp
    rcases traceCallersAux_mem_cases hp with ⟨hd, _, _, hpe⟩ | ⟨hd, _, c, _, hm⟩
    · subst hpe
      simp [hlen]
      omega
    · exact ih c.function (path ++ [current]) (depth + 1) (by simp [hlen]) p hm

/-- Length bound for `traceCalleesAux`, as for callers. -/
theorem traceCalleesAux_length_le {cs : Cscope} {maxD : Nat}
    {ef ed : List String} :
    ∀ (fuel : Nat) (current : String) (path : List String) (depth : Nat),
      path.length = depth →
      ∀ p ∈ traceCalleesAux cs maxD ef ed fuel current path depth,
        p.functions.length ≤ maxD + 1 := by
  intro fuel
  induction fuel with
  | zero =>
    intro current path depth _ p hp
    rw [traceCalleesAux] at hp
    cases hp
  | succ n ih =>
    intro current path depth hlen p hp
    rcases traceCalleesAux_mem_cases hp with ⟨hd, _, _, hpe⟩ | ⟨hd, _, c, _, hm⟩
    · subst hpe
      simp [hlen]
      omega
    · exact ih c.function (path ++ [current]) (depth + 1) (by simp [hlen]) p hm

/-- Claim C4: every `CallPath` returned by `trace_callers` or
`trace_callees`, for every call relation, root function and depth bound,
has at most `maxDepth + 1` functions. -/
theorem c4_path_length_bound (cs : Cscope) (cb : Bool) (root : String)
    (maxDepth : Nat) (ef ed : List String) (p : CallPath) :
    (p ∈ trace_callers cs cb root maxDepth ef ed →
      p.functions.length ≤ maxDepth + 1) ∧
    (p ∈ trace_callees cs root maxDepth ef ed →
      p.functions.length ≤ maxDepth + 1) :=
  ⟨fun hp => traceCallersAux_length_le (maxDepth + 1) root [] 0 rfl p hp,
   fun hp => traceCalleesAux_length_le (maxDepth + 1) root [] 0 rfl p hp⟩

/-- Appending a fresh element to a duplicate-free list keeps it
duplicate-free. -/
theorem nodup_append_singleton {l : List String} {a : String}
    (h : l.Nodup) (ha : a ∉ l) : (l ++ [a]).Nodup := by
  simp [List.nodup_append, h, ha]

/-- Paths produced by `traceCallersAux` from a duplicate-free accumulated
path are duplicate-free. -/
theorem traceCallersAux_nodup {cs : Cscope} {cb : Bool} {maxD : Nat}
    {ef ed : List String} :
    ∀ (fuel : Nat) (current : String) (path : List String) (depth : Nat),
      path.Nodup →
      ∀ p ∈ traceCallersAux cs cb maxD ef ed fuel current path depth,
        p.functions.Nodup := by
  intro fuel
  induction fuel with
  | zero =>
    intro current path depth _ p hp
    rw [traceCallersAux] at hp
    cases hp
  | succ n ih =>
    intro current path depth hnd p hp
    rcases traceCallersAux_mem_cases hp with ⟨_, hnm, _, hpe⟩ | ⟨_, hnm, c, _, hm⟩
    · subst hpe
      exact List.nodup_reverse.mpr (nodup_append_singleton hnd hnm)
    · exact ih c.function (path ++ [current]) (depth + 1)
        (nodup_append_singleton hnd hnm) p hm

/-- Paths produced by `traceCalleesAux` from a duplicate-free accumulated
path are duplicate-free. -/
theorem traceCalleesAux_nodup {cs : Cscope} {maxD : Nat}
    {ef ed : List String} :
    ∀ (fuel : Nat) (current : String) (path : List String) (depth : Nat),
      path.Nodup →
      ∀ p ∈ traceCalleesAux cs maxD ef ed fuel current path depth,
        p.functions.Nodup := by
  intro fuel
  induction fuel with
  | zero =>
    intro current path depth _ p hp
    rw [traceCalleesAux] at hp
    cases hp
  | succ n ih =>
    intro current path depth hnd p hp
    rcases traceCalleesAux_mem_cases hp with ⟨_, hnm, _, hpe⟩ | ⟨_, hnm, c, _, hm⟩
    · subst hpe
      exact nodup_append_singleton hnd hnm
    · exact ih c.function (path ++ [current]) (depth + 1)
        (nodup_append_singleton hnd hnm) p hm

/-- Structural facts about every path found by `findPathsAux` under the
branch invariants: the result extends the accumulated path at `current`,
ends at the target, is duplicate-free, and contains the target exactly
once. -/
theorem findPathsAux_spec {cs : Cscope} {maxD : Nat} {target : String} :
    ∀ (fuel : Nat) (current : String) (path : List String) (depth : Nat)
      (visited : List String),
      path.Nodup → (∀ x ∈ path, x ∈ visited) → target ∉ path →
      ∀ p ∈ findPathsAux cs maxD target fuel current path depth visited,
        (∃ rest, p.functions = path ++ current :: rest) ∧
        p.functions.getLast? = some target ∧
        p.functions.Nodup ∧
        p.functions.count target = 1 := by
  intro fuel
  induction fuel with
  | zero =>
    intro current path depth visited _ _ _ p hp
    rw [findPathsAux] at hp
    cases hp
  | succ n ih =>
    intro current path depth visited hnd hsub htn p hp
    rcases findPathsAux_mem_cases hp with ⟨_, heq, hpe⟩ | ⟨_, hne, hnv, c, _, hm⟩
    · subst heq
      subst hpe
      refine ⟨⟨[], rfl⟩, ?_, ?_, ?_⟩
      · simp
      · exact nodup_append_singleton hnd htn
      · simp [List.count_append, List.count_eq_zero.mpr htn]
    · have hcp : current ∉ path := fun hc => hnv (hsub current hc)
      have hsub' : ∀ x ∈ path ++ [current], x ∈ current :: visited := by
        intro x hx
        rcases List.mem_append.mp hx with h | h
        · exact List.mem_cons_of_mem _ (hsub x h)
        · simp at h
          simp [h]
      have htn' : target ∉ path ++ [current] := by
        intro hx
        rcases List.mem_append.mp hx with h | h
        · exact htn h
        · simp at h
          exact hne h.symm
      have hrec := ih c.function (path ++ [current]) (depth + 1)
        (current :: visited) (nodup_append_singleton hnd hcp) hsub' htn' p hm
      obtain ⟨⟨rest, hre⟩, hlast, hnodup, hcount⟩ := hrec
      exact ⟨⟨c.function :: rest, by simpa using hre⟩, hlast, hnodup, hcount⟩

/-- Claim C6: for every call relation (including cyclic ones), no path
returned by `trace_callers`, `trace_callees` or `find_call_paths` contains
the same function name twice — a function already on the current recursion
branch is never re-descended into. -/
theorem c6_no_repeated_function (cs : Cscope) (cb : Bool)
    (root fromFn toFn : String) (maxDepth : Nat) (ef ed : List String)
    (p : CallPath) :
    (p ∈ trace_callers cs cb root maxDepth ef ed → p.functions.Nodup) ∧
    (p ∈ trace_callees cs root maxDepth ef ed → p.functions.Nodup) ∧
    (p ∈ find_call_paths cs fromFn toFn maxDepth → p.functions.Nodup) :=
  ⟨fun hp => traceCallersAux_nodup (maxDepth + 1) root [] 0 List.nodup_nil p hp,
   fun hp => traceCalleesAux_nodup (maxDepth + 1) root [] 0 List.nodup_nil p hp,
   fun hp =>
     (findPathsAux_spec (maxDepth + 1) fromFn [] 0 [] List.nodup_nil
       (by intro x hx; cases hx) (by intro hx; cases hx) p hp).2.2.1⟩

/-- Claim C10: every path returned by `find_call_paths` starts at the
`from` function, ends at the `to` function, contains the target exactly
once, and repeats no function; when the two endpoints coincide the result
is exactly the single-function path at depth 0. -/
theorem c10_find_call_paths_shape (cs : Cscope) (fromFn toFn : String)
    (maxDepth : Nat) :
    (∀ p ∈ find_call_paths cs fromFn toFn maxDepth,
      p.functions.head? = some fromFn ∧
      p.functions.getLast? = some toFn ∧
      p.functions.count toFn = 1 ∧
      p.functions.Nodup) ∧
    find_call_paths cs fromFn fromFn maxDepth = [CallPath.mk [fromFn] 0] := by
  constructor
  · intro p hp
    have h := findPathsAux_spec (maxDepth + 1) fromFn [] 0 [] List.nodup_nil
      (by intro x hx; cases hx) (by intro hx; cases hx) p hp
    obtain ⟨⟨rest, hre⟩, hlast, hnodup, hcount⟩ := h
    refine ⟨?_, hlast, hcount, hnodup⟩
    rw [hre]
    simp
  · rw [find_call_paths, findPathsAux]
    simp

/-- No path emitted by `traceCallersAux` is excluded: the emission is
guarded by `shouldExcludePath`. -/
theorem traceCallersAux_not_excluded {cs : Cscope} {cb : Bool} {maxD : Nat}
    {ef ed : List String} :
    ∀ (fuel : Nat) (current : String) (path : List String) (depth : Nat),
      ∀ p ∈ traceCallersAux cs cb maxD ef ed fuel current path depth,
        shouldExcludePath cs p.functions ef ed = false := by
  intro fuel
  induction fuel with
  | zero =>
    intro current path depth p hp
    rw [traceCallersAux] at hp
    cases hp
  | succ n ih =>
    intro current path depth p hp
    rcases traceCallersAux_mem_cases hp with ⟨_, _, hex, hpe⟩ | ⟨_, _, c, _, hm⟩
    · subst hpe
      exact hex
    · exact ih c.function (path ++ [current]) (depth + 1) p hm

/-- No path emitted by `traceCalleesAux` is excluded. -/
theorem traceCalleesAux_not_excluded {cs : Cscope} {maxD : Nat}
    {ef ed : List String} :
    ∀ (fuel : Nat) (current : String) (path : List String) (depth : Nat),
      ∀ p ∈ traceCalleesAux cs maxD ef ed fuel current path depth,
        shouldExcludePath cs p.functions ef ed = false := by
  intro fuel
  induction fuel with
  | zero =>
    intro current path depth p hp
    rw [traceCalleesAux] at hp
    cases hp
  | succ n ih =>
    intro current path depth p hp
    rcases traceCalleesAux_mem_cases hp with ⟨_, _, hex, hpe⟩ | ⟨_, _, c, _, hm⟩
    · subst hpe
      exact hex
    · exact ih c.function (path ++ [current]) (depth + 1) p hm

/-- Unpacking `shouldExcludePath = false` into the two exclusion
guarantees: no excluded function name on the path, and no function whose
resolved, non-empty definition file contains an excluded directory as a
substring. -/
theorem shouldExcludePath_eq_false_imp {cs : Cscope} {path : List String}
    {ef ed : List String}
    (h : shouldExcludePath cs path ef ed = false) :
    (∀ f ∈ path, f ∉ ef) ∧
    (∀ f ∈ path, ∀ fd, cs.findDef f = some fd → fd.file ≠ "" →
      ∀ d ∈ ed, strContains fd.file d = false) := by
  simp only [shouldExcludePath, Bool.or_eq_false_iff, List.any_eq_false] at h
  obtain ⟨h1, h2⟩ := h
  constructor
  · intro f hf hfe
    have := h1 f hf
    simp [hfe] at this
  · intro f hf fd hfd hne d hd
    have h := h2 f hf
    rw [hfd] at h
    by_contra hc
    apply h
    simp only [Bool.and_eq_true, List.any_eq_true]
    exact ⟨by simpa using hne, d, hd, by simpa using hc⟩

/-- Claim C7: for every exclusion set of function names, no path returned
by `trace_callers` or `trace_callees` contains an excluded name; for every
excluded-directory set, no returned path contains a function whose
definition file, as resolved (non-emptily) through the symbol query
collaborator, contains an excluded directory as a substring of its path. -/
theorem c7_exclusion (cs : Cscope) (cb : Bool) (root : String)
    (maxDepth : Nat) (ef ed : List String) (p : CallPath)
    (hp : p ∈ trace_callers cs cb root maxDepth ef ed ∨
          p ∈ trace_callees cs root maxDepth ef ed) :
    (∀ f ∈ p.functions, f ∉ ef) ∧
    (∀ f ∈ p.functions, ∀ fd, cs.findDef f = some fd → fd.file ≠ "" →
      ∀ d ∈ ed, strContains fd.file d = false) := by
  rcases hp with hp | hp
  · exact shouldExcludePath_eq_false_imp
      (traceCallersAux_not_excluded (maxDepth + 1) root [] 0 p hp)
  · exact shouldExcludePath_eq_false_imp
      (traceCalleesAux_not_excluded (maxDepth + 1) root [] 0 p hp)

/-- The path emitted at the current node of `traceCallersAux` is in the
result when the guards pass. -/
theorem traceCallersAux_head_mem {cs : Cscope} {cb : Bool} {maxD : Nat}
    {ef ed : List String} {fuel : Nat} {current : String} {path : List String}
    {depth : Nat} (h1 : depth ≤ maxD) (h2 : current ∉ path)
    (h3 : shouldExcludePath cs (path ++ [current]).reverse ef ed = false) :
    CallPath.mk (path ++ [current]).reverse depth ∈
      traceCallersAux cs cb maxD ef ed (fuel + 1) current path depth := by
  rw [traceCallersAux]
  rw [if_neg (by simp [Nat.not_lt.mpr h1, h2])]
  refine List.mem_append_left _ ?_
  rw [if_neg (by simpa using h3)]
  exact List.mem_singleton.mpr rfl

/-- Results of a recursive call of `traceCallersAux` on a caller are
results of the calling node when the guards pass. -/
theorem traceCallersAux_sub_mem {cs : Cscope} {cb : Bool} {maxD : Nat}
    {ef ed : List String} {fuel : Nat} {current : String} {path : List String}
    {depth : Nat} {c : FunctionCall} {p : CallPath}
    (h1 : depth ≤ maxD) (h2 : current ∉ path)
    (hc : c ∈ callersOf cs cb current)
    (hm : p ∈ traceCallersAux cs cb maxD ef ed fuel c.function
      (path ++ [current]) (depth + 1)) :
    p ∈ traceCallersAux cs cb maxD ef ed (fuel + 1) current path depth := by
  rw [traceCallersAux]
  rw [if_neg (by simp [Nat.not_lt.mpr h1, h2])]
  exact List.mem_append_right _ (List.mem_flatMap.mpr ⟨c, hc, hm⟩)

/-- Completeness of `traceCallersAux`: every duplicate-free caller chain
within the remaining depth budget whose reversed path is not excluded is
emitted. -/
theorem traceCallersAux_complete {cs : Cscope} {cb : Bool} {maxD : Nat}
    {ef ed : List String} :
    ∀ (l : List String) (fuel : Nat) (current : String) (path : List String)
      (depth : Nat),
      List.Chain' (callerEdge cs cb) (current :: l) →
      (path ++ current :: l).Nodup →
      depth + l.length ≤ maxD →
      maxD + 1 ≤ fuel + depth →
      shouldExcludePath cs (path ++ current :: l).reverse ef ed = false →
      CallPath.mk (path ++ current :: l).reverse (depth + l.length) ∈
        traceCallersAux cs cb maxD ef ed fuel current path depth := by
  intro l
  induction l with
  | nil =>
    intro fuel current path depth _ hnd hdep hfuel hex
    cases fuel with
    | zero => omega
    | succ n =>
      have h1 : depth ≤ maxD := by simpa using hdep
      have h2 : current ∉ path := by
        intro hc
        exact (List.disjoint_of_nodup_append hnd) hc (by simp)
      simpa using traceCallersAux_head_mem h1 h2 hex
  | cons b l ih =>
    intro fuel current path depth hchain hnd hdep hfuel hex
    cases fuel with
    | zero => omega
    | succ n =>
      have h1 : depth ≤ maxD := by simp at hdep; omega
      have h2 : current ∉ path := by
        intro hc
        exact (List.disjoint_of_nodup_append hnd) hc (by simp)
      have hchain' := List.chain'_cons.mp hchain
      obtain ⟨c, hc, hcf⟩ := List.mem_map.mp hchain'.1
      subst hcf
      have hrec := ih n c.function (path ++ [current]) (depth + 1)
        hchain'.2
        (by simpa using hnd)
        (by simp at hdep ⊢; omega)
        (by omega)
        (by simpa using hex)
      have hpe : path ++ [current] ++ c.function :: l =
          path ++ current :: c.function :: l := by
        simp
      rw [hpe] at hrec
      have hde : depth + 1 + l.length = depth + (c.function :: l).length := by
        simp
        omega
      rw [hde] at hrec
      exact traceCallersAux_sub_mem h1 h2 hc hrec

/-- The path emitted at the current node of `traceCalleesAux` is in the
result when the guards pass. -/
theorem traceCalleesAux_head_mem {cs : Cscope} {maxD : Nat}
    {ef ed : List String} {fuel : Nat} {current : String} {path : List String}
    {depth : Nat} (h1 : depth ≤ maxD) (h2 : current ∉ path)
    (h3 : shouldExcludePath cs (path ++ [current]) ef ed = false) :
    CallPath.mk (path ++ [current]) depth ∈
      traceCalleesAux cs maxD ef ed (fuel + 1) current path depth := by
  rw [traceCalleesAux]
  rw [if_neg (by simp [Nat.not_lt.mpr h1, h2])]
  refine List.mem_append_left _ ?_
  rw [if_neg (by simpa using h3)]
  exact List.mem_singleton.mpr rfl

/-- Results of a recursive call of `traceCalleesAux` on a callee are
results of the calling node when the guards pass. -/
theorem traceCalleesAux_sub_mem {cs : Cscope} {maxD : Nat}
    {ef ed : List String} {fuel : Nat} {current : String} {path : List String}
    {depth : Nat} {c : FunctionCall} {p : CallPath}
    (h1 : depth ≤ maxD) (h2 : current ∉ path)
    (hc : c ∈ cs.calledBy current)
    (hm : p ∈ traceCalleesAux cs maxD ef ed fuel c.function
      (path ++ [current]) (depth + 1)) :
    p ∈ traceCalleesAux cs maxD ef ed (fuel + 1) current path depth := by
  rw [traceCalleesAux]
  rw [if_neg (by simp [Nat.not_lt.mpr h1, h2])]
  exact List.mem_append_right _ (List.mem_flatMap.mpr ⟨c, hc, hm⟩)

/-- Completeness of `traceCalleesAux`: every duplicate-free callee chain
within the remaining depth budget whose path is not excluded is emitted. -/
theorem traceCalleesAux_complete {cs : Cscope} {maxD : Nat}
    {ef ed : List String} :
    ∀ (l : List String) (fuel : Nat) (current : String) (path : List String)
      (depth : Nat),
      List.Chain' (calleeEdge cs) (current :: l) →
      (path ++ current :: l).Nodup →
      depth + l.length ≤ maxD →
      maxD + 1 ≤ fuel + depth →
      shouldExcludePath cs (path ++ current :: l) ef ed = false →
      CallPath.mk (path ++ current :: l) (depth + l.length) ∈
        traceCalleesAux cs maxD ef ed fuel current path depth := by
  intro l
  induction l with
  | nil =>
    intro fuel current path depth _ hnd hdep hfuel hex
    cases fuel with
    | zero => omega
    | succ n =>
      have h1 : depth ≤ maxD := by simpa using hdep
      have h2 : current ∉ path := by
        intro hc
        exact (List.disjoint_of_nodup_append hnd) hc (by simp)
      simpa using traceCalleesAux_head_mem h1 h2 hex
  | cons b l ih =>
    intro fuel current path depth hchain hnd hdep hfuel hex
    cases fuel with
    | zero => omega
    | succ n =>
      have h1 : depth ≤ maxD := by simp at hdep; omega
      have h2 : current ∉ path := by
        intro hc
        exact (List.disjoint_of_nodup_append hnd) hc (by simp)
      have hchain' := List.chain'_cons.mp hchain
      obtain ⟨c, hc, hcf⟩ := List.mem_map.mp hchain'.1
      subst hcf
      have hrec := ih n c.function (path ++ [current]) (depth + 1)
        hchain'.2
        (by simpa using hnd)
        (by simp at hdep ⊢; omega)
        (by omega)
        (by simpa using hex)
      have hpe : path ++ [current] ++ c.function :: l =
          path ++ current :: c.function :: l := by
        simp
      rw [hpe] at hrec
      have hde : depth + 1 + l.length = depth + (c.function :: l).length := by
        simp
        omega
      rw [hde] at hrec
      exact traceCalleesAux_sub_mem h1 h2 hc hrec

/-- Claim C3: a branch cut off by the depth bound still contributes the
path accumulated so far.  For every caller chain (and callee chain) of up
to `maxDepth` edges — in particular one of exactly `maxDepth` edges, where
expansion stops — with no repeated function and not excluded, the
accumulated path is in the returned list. -/
theorem c3_depth_cutoff_still_records (cs : Cscope) (cb : Bool)
    (root : String) (maxDepth : Nat) (ef ed : List String) (l : List String) :
    (List.Chain' (callerEdge cs cb) (root :: l) →
      (root :: l).Nodup →
      l.length ≤ maxDepth →
      shouldExcludePath cs (root :: l).reverse ef ed = false →
      CallPath.mk (root :: l).reverse l.length ∈
        trace_callers cs cb root maxDepth ef ed) ∧
    (List.Chain' (calleeEdge cs) (root :: l) →
      (root :: l).Nodup →
      l.length ≤ maxDepth →
      shouldExcludePath cs (root :: l) ef ed = false →
      CallPath.mk (root :: l) l.length ∈
        trace_callees cs root maxDepth ef ed) := by
  constructor
  · intro hchain hnd hlen hex
    have := traceCallersAux_complete l (maxDepth + 1) root [] 0 hchain
      (by simpa using hnd) (by simpa using hlen) (by omega)
      (by simpa using hex)
    simpa using this
  · intro hchain hnd hlen hex
    have := traceCalleesAux_complete l (maxDepth + 1) root [] 0 hchain
      (by simpa using hnd) (by simpa using hlen) (by omega)
      (by simpa using hex)
    simpa using this

/-- Witness for C3 at a concrete cut-off: with `maxDepth = 1` the chain
`X -> A -> B` is cut at `X`, yet the accumulated path `A -> B` is
recorded. -/
theorem c3_witness :
    CallPath.mk (("B" :: ["A"]).reverse) (["A"] : List String).length ∈
      trace_callers exCsT true "B" 1 [] [] :=
  (c3_depth_cutoff_still_records exCsT true "B" 1 [] [] ["A"]).1
    (by rw [List.chain'_cons]; exact ⟨by decide, by simp⟩)
    (by decide) (by decide) (by decide)

/-- Witness for C4 at a concrete input. -/
theorem c4_witness :
    CallPath.mk ["A", "B"] 1 ∈ trace_callers exCsT true "B" 5 [] [] ∧
    (CallPath.mk ["A", "B"] 1).functions.length ≤ 5 + 1 :=
  ⟨by decide,
   (c4_path_length_bound exCsT true "B" 5 [] [] (CallPath.mk ["A", "B"] 1)).1
     (by decide)⟩

/-- Witness for C6 on the synthetic two-node cycle. -/
theorem c6_witness :
    CallPath.mk ["B", "A"] 1 ∈ trace_callers exCsCycle true "A" 5 [] [] ∧
    (CallPath.mk ["B", "A"] 1).functions.Nodup :=
  ⟨by decide,
   (c6_no_repeated_function exCsCycle true "A" "A" "B" 5 [] []
     (CallPath.mk ["B", "A"] 1)).1 (by decide)⟩

/-- Witness for C7 at a concrete path and exclusion sets. -/
theorem c7_witness :
    "A" ∉ (["helper"] : List String) ∧
    strContains "net/core/dev.c" "drivers" = false :=
  ⟨((c7_exclusion exCsT true "B" 5 ["helper"] ["drivers"]
      (CallPath.mk ["A", "B"] 1)) (Or.inl (by decide))).1 "A" (by decide),
   ((c7_exclusion exCsT true "B" 5 ["helper"] ["drivers"]
      (CallPath.mk ["A", "B"] 1)) (Or.inl (by decide))).2 "A" (by decide)
     ⟨"A", "net/core/dev.c", 1, "int A()"⟩ (by decide) (by decide)
     "drivers" (by decide)⟩

/-- Witness for C10 at a concrete input. -/
theorem c10_witness :
    (CallPath.mk ["A", "B"] 1).functions.head? = some "A" ∧
    (CallPath.mk ["A", "B"] 1).functions.getLast? = some "B" :=
  ⟨(((c10_find_call_paths_shape exCsT "A" "B" 5).1
      (CallPath.mk ["A", "B"] 1)) (by decide)).1,
   (((c10_find_call_paths_shape exCsT "A" "B" 5).1
      (CallPath.mk ["A", "B"] 1)) (by decide)).2.1⟩

/-!  Lemmas about the lock-state walk. -/

/-- Membership in `pysetAdd`. -/
theorem mem_pysetAdd {s : List String} {x y : String} :
    x ∈ pysetAdd s y ↔ x ∈ s ∨ x = y := by
  unfold pysetAdd
  by_cases h : s.contains y
  · rw [if_pos h]
    have hy : y ∈ s := by simpa using h
    constructor
    · exact Or.inl
    · rintro (hx | rfl)
      · exact hx
      · exact hy
  · rw [if_neg h]
    simp

/-- The held-lock component of one step of the operation loop is exactly
`heldStep`. -/
theorem applyOp_held (tl : Option (List String)) (st : OpFoldState)
    (op : LockOperation) :
    (applyOp tl st op).held_locks = heldStep tl st.held_locks op := by
  unfold applyOp heldStep
  cases h : opMatchesTarget tl op <;> cases hop : op.operation <;> simp [h, hop]

/-- The held-lock component of the operation loop over a list is the
`heldStep` fold. -/
theorem foldl_applyOp_held (tl : Option (List String)) :
    ∀ (ops : List LockOperation) (st : OpFoldState),
      (ops.foldl (applyOp tl) st).held_locks =
        ops.foldl (heldStep tl) st.held_locks := by
  intro ops
  induction ops with
  | nil => intro st; rfl
  | cons op rest ih =>
    intro st
    rw [List.foldl_cons, List.foldl_cons, ih, applyOp_held]

/-- Unfolding `acquiredNames` over a cons. -/
theorem acquiredNames_cons (tl : Option (List String)) (op : LockOperation)
    (rest : List LockOperation) :
    acquiredNames tl (op :: rest) =
      if opMatchesTarget tl op && isAcquireOp op then
        op.lock_name :: acquiredNames tl rest
      else acquiredNames tl rest := by
  unfold acquiredNames
  rw [List.filter_cons]
  by_cases h : (opMatchesTarget tl op && isAcquireOp op) = true
  · rw [if_pos h, if_pos h, List.map_cons]
  · rw [if_neg h, if_neg h]

/-- The acquire-set and protection-evidence components of the operation
loop collect exactly the matching acquired names. -/
theorem foldl_applyOp_acquires (tl : Option (List String)) :
    ∀ (ops : List LockOperation) (st : OpFoldState) (x : String),
      (x ∈ (ops.foldl (applyOp tl) st).function_acquires ↔
        x ∈ st.function_acquires ∨ x ∈ acquiredNames tl ops) ∧
      (x ∈ (ops.foldl (applyOp tl) st).protected_by_locks ↔
        x ∈ st.protected_by_locks ∨ x ∈ acquiredNames tl ops) := by
  intro ops
  induction ops with
  | nil =>
    intro st x
    simp [acquiredNames]
  | cons op rest ih =>
    intro st x
    rw [List.foldl_cons, acquiredNames_cons]
    cases h : opMatchesTarget tl op <;> cases hop : isAcquireOp op
    · simpa [applyOp, h] using ih st x
    · simpa [applyOp, h] using ih st x
    · have hop' : op.operation = OpKind.release := by
        unfold isAcquireOp at hop
        cases hk : op.operation
        · rw [hk] at hop; cases hop
        · rfl
      have happ : applyOp tl st op =
          { st with
            held_locks := pysetDiscard st.held_locks op.lock_name,
            function_releases := pysetAdd st.function_releases op.lock_name } := by
        unfold applyOp
        simp [h, hop']
      rw [happ]
      simpa using ih _ x
    · have hop' : op.operation = OpKind.acquire := by
        unfold isAcquireOp at hop
        cases hk : op.operation
        · rfl
        · rw [hk] at hop; cases hop
      have happ : applyOp tl st op =
          { st with
            held_locks := pysetAdd st.held_locks op.lock_name,
            function_acquires := pysetAdd st.function_acquires op.lock_name,
            protected_by_locks :=
              pysetAdd st.protected_by_locks op.lock_name } := by
        unfold applyOp
        simp [h, hop']
      rw [happ]
      rw [if_pos (show (true && true) = true from rfl)]
      have iha := (ih ({ st with
            held_locks := pysetAdd st.held_locks op.lock_name,
            function_acquires := pysetAdd st.function_acquires op.lock_name,
            protected_by_locks :=
              pysetAdd st.protected_by_locks op.lock_name }) x)
      constructor
      · rw [iha.1]
        simp only [mem_pysetAdd, List.mem_cons]
        tauto
      · rw [iha.2]
        simp only [mem_pysetAdd, List.mem_cons]
        tauto

/-- Membership in the complete-section loop
(`for lock in function_acquires: if lock in function_releases: add`). -/
theorem mem_foldl_sectionAdd (fr : List String) :
    ∀ (fa pr : List String) (x : String),
      x ∈ fa.foldl
        (fun pr lock => if fr.contains lock then pysetAdd pr lock else pr)
        pr ↔
      x ∈ pr ∨ (x ∈ fa ∧ x ∈ fr) := by
  intro fa
  induction fa with
  | nil =>
    intro pr x
    simp
  | cons a fa ih =>
    intro pr x
    rw [List.foldl_cons]
    by_cases h : fr.contains a
    · rw [if_pos h, ih]
      have ha : a ∈ fr := by simpa using h
      simp only [mem_pysetAdd, List.mem_cons]
      constructor
      · rintro ((hx | rfl) | ⟨h1, h2⟩)
        · exact Or.inl hx
        · exact Or.inr ⟨Or.inl rfl, ha⟩
        · exact Or.inr ⟨Or.inr h1, h2⟩
      · rintro (hx | ⟨(rfl | h1), h2⟩)
        · exact Or.inl (Or.inl hx)
        · exact Or.inl (Or.inr rfl)
        · exact Or.inr ⟨h1, h2⟩
    · rw [if_neg h, ih]
      have ha : a ∉ fr := by simpa using h
      simp only [List.mem_cons]
      constructor
      · rintro (hx | ⟨h1, h2⟩)
        · exact Or.inl hx
        · exact Or.inr ⟨Or.inr h1, h2⟩
      · rintro (hx | ⟨(rfl | h1), h2⟩)
        · exact Or.inl hx
        · exact absurd h2 ha
        · exact Or.inr ⟨h1, h2⟩

/-- The operations a function contributes to held-lock state tracking in
`analyzeFunctionStep`. -/
def stepOps (cs : Cscope) (isDirectCaller : Bool) (targetFunction f : String) :
    List LockOperation :=
  if isDirectCaller then
    filter_operations_before_call cs f targetFunction
      (find_lock_operations cs f)
  else find_lock_operations cs f

/-- Held-lock component of `analyzeFunctionStep`. -/
theorem analyzeFunctionStep_held (cs : Cscope) (tl : Option (List String))
    (dir : Bool) (tgt f : String) (st : AnalyzerState) :
    (analyzeFunctionStep cs tl dir tgt f st).held_locks =
      (stepOps cs dir tgt f).foldl (heldStep tl) st.held_locks := by
  show (List.foldl (applyOp tl)
    { held_locks := st.held_locks, function_acquires := [],
      function_releases := [], protected_by_locks := st.protected_by_locks }
    (stepOps cs dir tgt f)).held_locks = _
  rw [foldl_applyOp_held]

/-- Display-operations component of `analyzeFunctionStep`: always the full,
unfiltered operation list of the function. -/
theorem analyzeFunctionStep_ops (cs : Cscope) (tl : Option (List String))
    (dir : Bool) (tgt f : String) (st : AnalyzerState) :
    (analyzeFunctionStep cs tl dir tgt f st).all_operations =
      st.all_operations ++ find_lock_operations cs f := rfl

/-- Protection-evidence component of `analyzeFunctionStep`: exactly the
previous evidence plus the matching acquired names of the state-tracked
operations (the complete-section loop adds nothing new, since every name
it adds was already recorded at its acquire). -/
theorem analyzeFunctionStep_prot (cs : Cscope) (tl : Option (List String))
    (dir : Bool) (tgt f : String) (st : AnalyzerState) (x : String) :
    x ∈ (analyzeFunctionStep cs tl dir tgt f st).protected_by_locks ↔
      x ∈ st.protected_by_locks ∨
      x ∈ acquiredNames tl (stepOps cs dir tgt f) := by
  show x ∈ (let folded := (List.foldl (applyOp tl)
      { held_locks := st.held_locks, function_acquires := [],
        function_releases := [],
        protected_by_locks := st.protected_by_locks }
      (stepOps cs dir tgt f))
    folded.function_acquires.foldl
      (fun pr lock =>
        if folded.function_releases.contains lock then pysetAdd pr lock
        else pr)
      folded.protected_by_locks) ↔ _
  rw [mem_foldl_sectionAdd]
  rw [(foldl_applyOp_acquires tl (stepOps cs dir tgt f)
    { held_locks := st.held_locks, function_acquires := [],
      function_releases := [],
      protected_by_locks := st.protected_by_locks } x).1]
  rw [(foldl_applyOp_acquires tl (stepOps cs dir tgt f)
    { held_locks := st.held_locks, function_acquires := [],
      function_releases := [],
      protected_by_locks := st.protected_by_locks } x).2]
  simp only [List.not_mem_nil, false_or]
  tauto

/-- `effectiveOps` as the concatenation of per-function `stepOps` along the
walk. -/
theorem analyzeWalk_held (cs : Cscope) (tl : Option (List String))
    (tgt : String) :
    ∀ (fs : List String) (st : AnalyzerState),
      (analyzeWalk cs tl tgt fs st).held_locks =
        (effectiveOps cs tgt fs).foldl (heldStep tl) st.held_locks := by
  intro fs
  induction fs with
  | nil => intro st; rfl
  | cons f rest ih =>
    intro st
    cases rest with
    | nil =>
      show (analyzeFunctionStep cs tl true tgt f st).held_locks = _
      rw [analyzeFunctionStep_held]
      rfl
    | cons g rest' =>
      show (analyzeWalk cs tl tgt (g :: rest')
        (analyzeFunctionStep cs tl false tgt f st)).held_locks = _
      rw [ih, analyzeFunctionStep_held]
      show _ = (find_lock_operations cs f ++
        effectiveOps cs tgt (g :: rest')).foldl (heldStep tl) st.held_locks
      rw [List.foldl_append]
      rfl

/-- The display-operation list accumulated by the walk is the full,
unfiltered operation list of every walked function, in path order. -/
theorem analyzeWalk_ops (cs : Cscope) (tl : Option (List String))
    (tgt : String) :
    ∀ (fs : List String) (st : AnalyzerState),
      (analyzeWalk cs tl tgt fs st).all_operations =
        st.all_operations ++ fs.flatMap (find_lock_operations cs) := by
  intro fs
  induction fs with
  | nil => intro st; simp [analyzeWalk]
  | cons f rest ih =>
    intro st
    cases rest with
    | nil =>
      show (analyzeFunctionStep cs tl true tgt f st).all_operations = _
      rw [analyzeFunctionStep_ops]
      simp
    | cons g rest' =>
      show (analyzeWalk cs tl tgt (g :: rest')
        (analyzeFunctionStep cs tl false tgt f st)).all_operations = _
      rw [ih, analyzeFunctionStep_ops]
      simp

/-- `acquiredNames` distributes over concatenation. -/
theorem acquiredNames_append (tl : Option (List String))
    (l1 l2 : List LockOperation) :
    acquiredNames tl (l1 ++ l2) = acquiredNames tl l1 ++ acquiredNames tl l2 := by
  unfold acquiredNames
  rw [List.filter_append, List.map_append]

/-- The protection evidence accumulated by the walk is exactly the set of
matching acquired names along the effective operations. -/
theorem analyzeWalk_prot (cs : Cscope) (tl : Option (List String))
    (tgt : String) :
    ∀ (fs : List String) (st : AnalyzerState) (x : String),
      x ∈ (analyzeWalk cs tl tgt fs st).protected_by_locks ↔
        x ∈ st.protected_by_locks ∨
        x ∈ acquiredNames tl (effectiveOps cs tgt fs) := by
  intro fs
  induction fs with
  | nil =>
    intro st x
    simp [analyzeWalk, effectiveOps, acquiredNames]
  | cons f rest ih =>
    intro st x
    cases rest with
    | nil =>
      show x ∈ (analyzeFunctionStep cs tl true tgt f st).protected_by_locks ↔ _
      rw [analyzeFunctionStep_prot]
      rfl
    | cons g rest' =>
      show x ∈ (analyzeWalk cs tl tgt (g :: rest')
        (analyzeFunctionStep cs tl false tgt f st)).protected_by_locks ↔ _
      rw [ih, analyzeFunctionStep_prot]
      have he : effectiveOps cs tgt (f :: g :: rest') =
          find_lock_operations cs f ++ effectiveOps cs tgt (g :: rest') := rfl
      rw [he, acquiredNames_append, List.mem_append]
      have hs : stepOps cs false tgt f = find_lock_operations cs f := rfl
      rw [hs]
      tauto

/-- Claim C1: with no target-lock filter, when the walked held-set ends
empty but protection evidence exists, the returned held-set is replaced by
the protection evidence; with an explicit (non-empty) filter no replacement
happens and the held-set is the literally-simulated one.  The evidence set
is exactly the set of matching acquired names along the walk (which is why
a self-contained acquire+release pair still counts).  Concretely, the
unfiltered rtnl scenario reports `"rtnl_lock"` as held. -/
theorem c1_protection_evidence_fallback :
    (∀ (cs : Cscope) (p : CallPath),
      (analyze_path_state cs p none).held_locks = [] →
      (analyze_path_state cs p none).protected_by_locks ≠ [] →
      (analyze_path_locks cs p none).held_locks =
        (analyze_path_state cs p none).protected_by_locks) ∧
    (∀ (cs : Cscope) (p : CallPath) (tl : List String), tl ≠ [] →
      (analyze_path_locks cs p (some tl)).held_locks =
        (analyze_path_state cs p (some tl)).held_locks) ∧
    (∀ (cs : Cscope) (p : CallPath) (tl : Option (List String)) (x : String),
      x ∈ (analyze_path_state cs p tl).protected_by_locks ↔
        x ∈ acquiredNames tl
          (effectiveOps cs (pathTarget p) (walkedFunctions p))) ∧
    "rtnl_lock" ∈
      (analyze_path_locks exCsRtnl (CallPath.mk ["A", "B"] 1) none).held_locks := by
  refine ⟨?_, ?_, ?_, ?_⟩
  · intro cs p h1 h2
    simp [analyze_path_locks, h1, h2, hasTargetFilter]
  · intro cs p tl htl
    cases tl with
    | nil => exact absurd rfl htl
    | cons a tl' => simp [analyze_path_locks, hasTargetFilter]
  · intro cs p tl x
    have := analyzeWalk_prot cs tl (pathTarget p) (walkedFunctions p)
      { held_locks := [], protected_by_locks := [], all_operations := [] } x
    simpa [analyze_path_state] using this
  · decide

/-- Witness for C1's fallback branch: the self-contained
`spin_lock(&L)`/`spin_unlock(&L)` section leaves the walked held-set empty,
and the unfiltered result is the protection evidence. -/
theorem c1_witness :
    (analyze_path_locks exCsPairedSpin (CallPath.mk ["A", "B"] 1)
        none).held_locks =
      (analyze_path_state exCsPairedSpin (CallPath.mk ["A", "B"] 1)
        none).protected_by_locks :=
  c1_protection_evidence_fallback.1 exCsPairedSpin (CallPath.mk ["A", "B"] 1)
    (by decide) (by decide)

/-- The walked functions of a path of shape `fs ++ [c, t]` are
`fs ++ [c]`. -/
theorem walkedFunctions_concat (fs : List String) (c t : String) (d : Nat) :
    walkedFunctions (CallPath.mk (fs ++ [c, t]) d) = fs ++ [c] := by
  have hlen : (fs ++ [c, t]).length > 1 := by simp
  unfold walkedFunctions
  rw [if_pos hlen]
  show (fs ++ [c, t]).dropLast = fs ++ [c]
  have hsplit : fs ++ [c, t] = (fs ++ [c]) ++ [t] := by simp
  rw [hsplit, List.dropLast_concat]

/-- The target of a path of shape `fs ++ [c, t]` is `t`. -/
theorem pathTarget_concat (fs : List String) (c t : String) (d : Nat) :
    pathTarget (CallPath.mk (fs ++ [c, t]) d) = t := by
  unfold pathTarget
  show (fs ++ [c, t]).getLast?.getD "" = t
  have hsplit : fs ++ [c, t] = (fs ++ [c]) ++ [t] := by simp
  rw [hsplit, List.getLast?_concat]
  rfl

/-- The effective state-tracking operations along `fs ++ [c]`: every
function except the direct caller contributes all its operations, the
direct caller `c` only those before its call of the target. -/
theorem effectiveOps_concat (cs : Cscope) (tgt : String) (c : String) :
    ∀ (fs : List String),
      effectiveOps cs tgt (fs ++ [c]) =
        fs.flatMap (find_lock_operations cs) ++
        filter_operations_before_call cs c tgt (find_lock_operations cs c) := by
  intro fs
  induction fs with
  | nil => rfl
  | cons f fs ih =>
    cases fs with
    | nil =>
      show find_lock_operations cs f ++ effectiveOps cs tgt [c] = _
      simp [effectiveOps]
    | cons g fs' =>
      show find_lock_operations cs f ++ effectiveOps cs tgt ((g :: fs') ++ [c]) = _
      rw [ih]
      simp

/-- Claim C2: only operations of the direct caller whose line is strictly
before the (first recorded) call-site line of the final function take part
in held-lock state tracking; excluded operations still appear in the
returned context's operation list.  Concretely, with `A` calling `B` at
line 15 and `spin_lock(&M)` at line 20, `M` is not held for `B` but its
operation is still displayed. -/
theorem c2_call_order_filter :
    (∀ (cs : Cscope) (tl : Option (List String)) (fs : List String)
       (c t : String) (d : Nat),
      (analyze_path_locks cs (CallPath.mk (fs ++ [c, t]) d) tl).lock_operations =
        (fs ++ [c]).flatMap (find_lock_operations cs) ∧
      (analyze_path_state cs (CallPath.mk (fs ++ [c, t]) d) tl).held_locks =
        (fs.flatMap (find_lock_operations cs) ++
          filter_operations_before_call cs c t
            (find_lock_operations cs c)).foldl (heldStep tl) [] ∧
      (∀ fc, (cs.calledBy c).find? (fun x => x.function == t) = some fc →
        filter_operations_before_call cs c t (find_lock_operations cs c) =
          (find_lock_operations cs c).filter
            (fun op => decide (op.line < fc.line)))) ∧
    ("M" ∉ (analyze_path_locks exCsSpinAfter (CallPath.mk ["A", "B"] 1)
        none).held_locks ∧
     "M" ∈ ((analyze_path_locks exCsSpinAfter (CallPath.mk ["A", "B"] 1)
        none).lock_operations.map LockOperation.lock_name)) := by
  constructor
  · intro cs tl fs c t d
    refine ⟨?_, ?_, ?_⟩
    · show (analyze_path_state cs (CallPath.mk (fs ++ [c, t]) d)
        tl).all_operations = _
      unfold analyze_path_state
      rw [analyzeWalk_ops, walkedFunctions_concat]
      simp
    · unfold analyze_path_state
      rw [analyzeWalk_held, walkedFunctions_concat, pathTarget_concat,
        effectiveOps_concat]
    · intro fc hfc
      unfold filter_operations_before_call
      rw [hfc]
  · exact ⟨by decide, by decide⟩

/-- Witness for C2 at the concrete call-order scenario: the filter keeps
only operations before line 15, so the line-20 spin lock is dropped from
state tracking. -/
theorem c2_witness :
    filter_operations_before_call exCsSpinAfter "A" "B"
        (find_lock_operations exCsSpinAfter "A") =
      (find_lock_operations exCsSpinAfter "A").filter
        (fun op => decide (op.line < 15)) :=
  (c2_call_order_filter.1 exCsSpinAfter none [] "A" "B" 1).2.2
    (FunctionCall.mk "B" "a.c" 15 "B();") (by decide)

/-- Claim C9 (implicit): when the direct caller has no recorded call site
of the final function (e.g. the target is reached only through a function
pointer), `_filter_operations_before_call` is the identity — every
operation, including those after the actual point of invocation, keeps
taking part in state tracking. -/
theorem c9_no_callsite_skips_filter (cs : Cscope) (caller target : String)
    (ops : List LockOperation)
    (h : ∀ x ∈ cs.calledBy caller, x.function ≠ target) :
    filter_operations_before_call cs caller target ops = ops := by
  unfold filter_operations_before_call
  have hnone : (cs.calledBy caller).find?
      (fun call => call.function == target) = none := by
    rw [List.find?_eq_none]
    intro x hx
    simpa using h x hx
  rw [hnone]

/-- Witness for C9: `A` has no recorded call of `B`, so its line-20 lock
operation survives the filter. -/
theorem c9_witness :
    filter_operations_before_call exCsNoCallsite "A" "B"
        (find_lock_operations exCsNoCallsite "A") =
      find_lock_operations exCsNoCallsite "A" :=
  c9_no_callsite_skips_filter exCsNoCallsite "A" "B"
    (find_lock_operations exCsNoCallsite "A") (by decide)

/-!  Lemmas for the unique-chain subsumption filter. -/

/-- A non-empty suffix passes Python's negative-slice suffix test. -/
theorem pySuffixEq_of_suffix {p q : List String} (hne : p ≠ [])
    (h : p <:+ q) : pySuffixEq p q = true := by
  obtain ⟨t, rfl⟩ := h
  unfold pySuffixEq
  rw [if_neg (by simp [hne])]
  have hlen : (t ++ p).length - p.length = t.length := by simp
  rw [hlen, List.drop_left]
  simp

/-- A prefix passes Python's slice prefix test. -/
theorem pyPrefixEq_of_prefix {p q : List String} (h : p <+: q) :
    pyPrefixEq p q = true := by
  obtain ⟨t, rfl⟩ := h
  unfold pyPrefixEq
  rw [List.take_left]
  simp

/-- Elements of the greedy filter's output come from the accumulator or
the input. -/
theorem keepLongest_subset (sub : List String → List String → Bool) :
    ∀ (l acc : List CallPath) (p : CallPath),
      p ∈ keepLongest sub acc l → p ∈ acc ∨ p ∈ l := by
  intro l
  induction l with
  | nil =>
    intro acc p hp
    exact Or.inl hp
  | cons x l ih =>
    intro acc p hp
    rw [keepLongest] at hp
    by_cases hsub : (acc.any (fun existing =>
        decide (x.functions.length < existing.functions.length) &&
        sub x.functions existing.functions)) = true
    · rw [if_pos hsub] at hp
      rcases ih acc p hp with h | h
      · exact Or.inl h
      · exact Or.inr (List.mem_cons_of_mem _ h)
    · rw [if_neg hsub] at hp
      rcases ih (acc ++ [x]) p hp with h | h
      · rcases List.mem_append.mp h with h | h
        · exact Or.inl h
        · simp at h
          exact Or.inr (by simp [h])
      · exact Or.inr (List.mem_cons_of_mem _ h)

/-- Invariant of the greedy subsumption filter: when the input is sorted
by descending length and every accumulator entry is at least as long as
every input entry, no kept path is subsumed (under `sub`) by a strictly
longer kept path. -/
theorem keepLongest_inv (sub : List String → List String → Bool) :
    ∀ (l acc : List CallPath),
      (∀ p ∈ acc, ∀ q ∈ acc,
        p.functions.length < q.functions.length →
        sub p.functions q.functions = false) →
      (∀ q ∈ acc, ∀ p ∈ l, p.functions.length ≤ q.functions.length) →
      List.Pairwise lenGe l →
      ∀ p ∈ keepLongest sub acc l, ∀ q ∈ keepLongest sub acc l,
        p.functions.length < q.functions.length →
        sub p.functions q.functions = false := by
  intro l
  induction l with
  | nil =>
    intro acc hinv _ _ p hp q hq
    exact hinv p hp q hq
  | cons x l ih =>
    intro acc hinv hlonger hpair
    have hpair' : List.Pairwise lenGe l := List.Pairwise.of_cons hpair
    have hxlong : ∀ r ∈ l, r.functions.length ≤ x.functions.length :=
      fun r hr => List.rel_of_pairwise_cons hpair hr
    have hkl : keepLongest sub acc (x :: l) = keepLongest sub
        (if acc.any (fun existing =>
            decide (x.functions.length < existing.functions.length) &&
            sub x.functions existing.functions) then acc else acc ++ [x]) l :=
      rfl
    rw [hkl]
    by_cases hsub : (acc.any (fun existing =>
        decide (x.functions.length < existing.functions.length) &&
        sub x.functions existing.functions)) = true
    · rw [if_pos hsub]
      exact ih acc hinv
        (fun q hq p hp => hlonger q hq p (List.mem_cons_of_mem _ hp))
        hpair'
    · rw [if_neg hsub]
      have hnosub : ∀ q ∈ acc, x.functions.length < q.functions.length →
          sub x.functions q.functions = false := by
        intro q hq hlt
        by_contra hc
        have hc' : sub x.functions q.functions = true := by
          revert hc
          cases sub x.functions q.functions <;> simp
        apply hsub
        rw [List.any_eq_true]
        exact ⟨q, hq, by simp [hlt, hc']⟩
      refine ih (acc ++ [x]) ?_ ?_ hpair'
      · intro p hp q hq hlt
        rcases List.mem_append.mp hp with hpa | hpx
        · rcases List.mem_append.mp hq with hqa | hqx
          · exact hinv p hpa q hqa hlt
          · rw [List.mem_singleton.mp hqx] at hlt
            have := hlonger p hpa x (by simp)
            omega
        · rcases List.mem_append.mp hq with hqa | hqx
          · rw [List.mem_singleton.mp hpx]
            rw [List.mem_singleton.mp hpx] at hlt
            exact hnosub q hqa hlt
          · rw [List.mem_singleton.mp hpx, List.mem_singleton.mp hqx] at hlt
            omega
      · intro q hq p hp
        rcases List.mem_append.mp hq with hqa | hqx
        · exact hlonger q hqa p (List.mem_cons_of_mem _ hp)
        · rw [List.mem_singleton.mp hqx]
          exact hxlong p hp

/-- Values of the grouping dictionary come from the accumulator's values or
from the input paths. -/
theorem groupPaths_values_subset :
    ∀ (l : List CallPath) (acc : List (String × CallPath)) (x : CallPath),
      x ∈ (groupPaths l acc).map Prod.snd →
      x ∈ acc.map Prod.snd ∨ x ∈ l := by
  intro l
  induction l with
  | nil =>
    intro acc x hx
    exact Or.inl hx
  | cons p rest ih =>
    intro acc x hx
    rw [groupPaths] at hx
    rcases hfind : acc.find?
        (fun kv => kv.1 == String.intercalate " -> " p.functions) with _ | kv
    · rw [hfind] at hx
      rcases ih _ x hx with h | h
      · rw [List.map_append] at h
        rcases List.mem_append.mp h with h | h
        · exact Or.inl h
        · simp at h
          exact Or.inr (by simp [h])
      · exact Or.inr (List.mem_cons_of_mem _ h)
    · rw [hfind] at hx
      have hx' : x ∈ List.map Prod.snd
          (if p.functions.length > kv.2.functions.length then
            groupPaths rest
              (acc.map (fun kv' =>
                if kv'.1 == String.intercalate " -> " p.functions then
                  (String.intercalate " -> " p.functions, p)
                else kv'))
          else groupPaths rest acc) := hx
      clear hx
      by_cases hlen : p.functions.length > kv.2.functions.length
      · rw [if_pos hlen] at hx' 
        rcases ih _ x hx' with h | h
        · rw [List.map_map] at h
          rcases List.mem_map.mp h with ⟨kv', hkv', hval⟩
          by_cases hk : (kv'.1 == String.intercalate " -> " p.functions) = true
          · rw [Function.comp_apply, if_pos hk] at hval
            exact Or.inr (by simp [← hval])
          · rw [Function.comp_apply, if_neg hk] at hval
            exact Or.inl (hval ▸ List.mem_map_of_mem Prod.snd hkv')
        · exact Or.inr (List.mem_cons_of_mem _ h)
      · rw [if_neg hlen] at hx'
        rcases ih _ x hx' with h | h
        · exact Or.inl h
        · exact Or.inr (List.mem_cons_of_mem _ h)

/-- Every path emitted by `traceCallersAux` is non-empty. -/
theorem traceCallersAux_mem_ne_nil {cs : Cscope} {cb : Bool} {maxD : Nat}
    {ef ed : List String} :
    ∀ (fuel : Nat) (current : String) (path : List String) (depth : Nat),
      ∀ p ∈ traceCallersAux cs cb maxD ef ed fuel current path depth,
        p.functions ≠ [] := by
  intro fuel
  induction fuel with
  | zero =>
    intro current path depth p hp
    rw [traceCallersAux] at hp
    cases hp
  | succ n ih =>
    intro current path depth p hp
    rcases traceCallersAux_mem_cases hp with ⟨_, _, _, hpe⟩ | ⟨_, _, c, _, hm⟩
    · subst hpe
      simp
    · exact ih c.function (path ++ [current]) (depth + 1) p hm

/-- Every path emitted by `traceCalleesAux` is non-empty. -/
theorem traceCalleesAux_mem_ne_nil {cs : Cscope} {maxD : Nat}
    {ef ed : List String} :
    ∀ (fuel : Nat) (current : String) (path : List String) (depth : Nat),
      ∀ p ∈ traceCalleesAux cs maxD ef ed fuel current path depth,
        p.functions ≠ [] := by
  intro fuel
  induction fuel with
  | zero =>
    intro current path depth p hp
    rw [traceCalleesAux] at hp
    cases hp
  | succ n ih =>
    intro current path depth p hp
    rcases traceCalleesAux_mem_cases hp with ⟨_, _, _, hpe⟩ | ⟨_, _, c, _, hm⟩
    · subst hpe
      simp
    · exact ih c.function (path ++ [current]) (depth + 1) p hm

/-- Claim C5: the unique caller chains contain no two distinct paths where
one's function sequence is a proper suffix of the other's, and the unique
callee chains contain no two distinct paths where one's function sequence
is a proper prefix of the other's. -/
theorem c5_unique_chains_not_subsumed (cs : Cscope) (cb : Bool)
    (root : String) (maxDepth : Nat) (ef ed : List String) (p q : CallPath) :
    (p ∈ get_unique_call_chains cs cb root maxDepth ef ed →
     q ∈ get_unique_call_chains cs cb root maxDepth ef ed →
     p.functions.length < q.functions.length →
     ¬ p.functions <:+ q.functions) ∧
    (p ∈ get_unique_callee_chains cs root maxDepth ef ed →
     q ∈ get_unique_callee_chains cs root maxDepth ef ed →
     p.functions.length < q.functions.length →
     ¬ p.functions <+: q.functions) := by
  constructor
  · intro hp hq hlt hsuf
    have hp0 : p ∈ List.insertionSort finalLe (keepLongest pySuffixEq []
        (List.insertionSort lenGe
          ((groupPaths (trace_callers cs cb root maxDepth ef ed) []).map
            Prod.snd))) := hp
    have hq0 : q ∈ List.insertionSort finalLe (keepLongest pySuffixEq []
        (List.insertionSort lenGe
          ((groupPaths (trace_callers cs cb root maxDepth ef ed) []).map
            Prod.snd))) := hq
    have hp1 := (List.mem_insertionSort finalLe).mp hp0
    have hq1 := (List.mem_insertionSort finalLe).mp hq0
    have hsorted : List.Pairwise lenGe (List.insertionSort lenGe
        ((groupPaths (trace_callers cs cb root maxDepth ef ed) []).map
          Prod.snd)) :=
      List.sorted_insertionSort lenGe _
    have hfalse := keepLongest_inv pySuffixEq _ []
      (by intro r hr; cases hr) (by intro r hr s hs; cases hr) hsorted
      p hp1 q hq1 hlt
    have hpne : p.functions ≠ [] := by
      rcases keepLongest_subset pySuffixEq _ [] p hp1 with h | h
      · cases h
      · have h2 := (List.mem_insertionSort lenGe).mp h
        rcases groupPaths_values_subset _ [] p h2 with h3 | h3
        · cases h3
        · exact traceCallersAux_mem_ne_nil (maxDepth + 1) root [] 0 p h3
    have htrue := pySuffixEq_of_suffix hpne hsuf
    rw [hfalse] at htrue
    cases htrue
  · intro hp hq hlt hpre
    have hp0 : p ∈ List.insertionSort finalLe (keepLongest pyPrefixEq []
        (List.insertionSort lenGe
          ((groupPaths (trace_callees cs root maxDepth ef ed) []).map
            Prod.snd))) := hp
    have hq0 : q ∈ List.insertionSort finalLe (keepLongest pyPrefixEq []
        (List.insertionSort lenGe
          ((groupPaths (trace_callees cs root maxDepth ef ed) []).map
            Prod.snd))) := hq
    have hp1 := (List.mem_insertionSort finalLe).mp hp0
    have hq1 := (List.mem_insertionSort finalLe).mp hq0
    have hsorted : List.Pairwise lenGe (List.insertionSort lenGe
        ((groupPaths (trace_callees cs root maxDepth ef ed) []).map
          Prod.snd)) :=
      List.sorted_insertionSort lenGe _
    have hfalse := keepLongest_inv pyPrefixEq _ []
      (by intro r hr; cases hr) (by intro r hr s hs; cases hr) hsorted
      p hp1 q hq1 hlt
    have htrue := pyPrefixEq_of_prefix hpre
    rw [hfalse] at htrue
    cases htrue

/-- Witness for C5 on a forked caller graph: the two surviving unique
chains `X -> B` and `Y -> A -> B` are not suffix-related. -/
theorem c5_witness :
    ¬ (CallPath.mk ["X", "B"] 1).functions <:+
      (CallPath.mk ["Y", "A", "B"] 2).functions :=
  (c5_unique_chains_not_subsumed exCsFork true "B" 5 [] []
    (CallPath.mk ["X", "B"] 1) (CallPath.mk ["Y", "A", "B"] 2)).1
    (by decide) (by decide) (by decide)

/-!  Lemmas for the breadth-first depth map. -/

/-- Looking up the function just written by `setDepth`. -/
theorem lookupDepth_setDepth_self :
    ∀ (m : List (String × Nat)) (f : String) (d : Nat),
      lookupDepth (setDepth m f d) f = some d := by
  intro m
  induction m with
  | nil =>
    intro f d
    simp [setDepth, lookupDepth]
  | cons kv rest ih =>
    intro f d
    obtain ⟨g, e⟩ := kv
    by_cases h : (g == f) = true
    · rw [setDepth, if_pos h]
      simp [lookupDepth]
    · rw [setDepth, if_neg h]
      rw [lookupDepth, if_neg h]
      exact ih f d

/-- Looking up another function after `setDepth`. -/
theorem lookupDepth_setDepth_ne :
    ∀ (m : List (String × Nat)) (f : String) (d : Nat) (g : String),
      g ≠ f →
      lookupDepth (setDepth m f d) g = lookupDepth m g := by
  intro m
  induction m with
  | nil =>
    intro f d g hne
    show lookupDepth [(f, d)] g = none
    rw [lookupDepth, if_neg (by simp [Ne.symm hne]), lookupDepth]
  | cons kv rest ih =>
    intro f d g hne
    obtain ⟨k, e⟩ := kv
    by_cases h : (k == f) = true
    · rw [setDepth, if_pos h]
      rw [lookupDepth, lookupDepth]
      rw [if_neg (by simp [Ne.symm hne])]
      have hk : k = f := by simpa using h
      rw [if_neg (by simp [hk, Ne.symm hne])]
    · rw [setDepth, if_neg h]
      rw [lookupDepth, lookupDepth]
      by_cases hkg : (k == g) = true
      · rw [if_pos hkg, if_pos hkg]
      · rw [if_neg hkg, if_neg hkg]
        exact ih f d g hne

/-- Correctness of the breadth-first loop of `get_function_depth_map`,
carried by three invariants: every recorded or queued depth is realized by
an actual callee chain from the roots; every recorded function's callees
are recorded within depth+1 or still queued at depth+1; every root is
recorded at 0 or still queued at 0. -/
theorem depthMapLoop_spec (cs : Cscope) (roots : List String) :
    ∀ (fuel : Nat) (queue : List (String × Nat)) (m m' : List (String × Nat)),
      (∀ f d, lookupDepth m f = some d → ReachN cs roots d f) →
      (∀ fd ∈ queue, ReachN cs roots fd.2 fd.1) →
      (∀ f d, lookupDepth m f = some d → ∀ h ∈ calleeNames cs f,
        (∃ e, e ≤ d + 1 ∧ lookupDepth m h = some e) ∨ (h, d + 1) ∈ queue) →
      (∀ r ∈ roots, lookupDepth m r = some 0 ∨ (r, 0) ∈ queue) →
      depthMapLoop cs fuel queue m = some m' →
      (∀ f d, lookupDepth m' f = some d → ReachN cs roots d f) ∧
      (∀ f d, lookupDepth m' f = some d → ∀ h ∈ calleeNames cs f,
        ∃ e, e ≤ d + 1 ∧ lookupDepth m' h = some e) ∧
      (∀ r ∈ roots, lookupDepth m' r = some 0) := by
  intro fuel
  induction fuel with
  | zero =>
    intro queue m m' _ _ _ _ hrun
    rw [depthMapLoop] at hrun
    cases hrun
  | succ n ih =>
    intro queue m m' hS1 hS2 hK hR hrun
    cases queue with
    | nil =>
      rw [depthMapLoop] at hrun
      injection hrun with hm
      subst hm
      refine ⟨hS1, ?_, ?_⟩
      · intro f d hf h hh
        rcases hK f d hf h hh with h1 | h1
        · exact h1
        · cases h1
      · intro r hr
        rcases hR r hr with h1 | h1
        · exact h1
        · cases h1
    | cons fd queue =>
      obtain ⟨f, d⟩ := fd
      rw [depthMapLoop] at hrun
      rcases hlook : lookupDepth m f with _ | e
      all_goals rw [hlook] at hrun
      -- none: update branch
      case none =>
        have hrun2 : depthMapLoop cs n
            (queue ++ (cs.calledBy f).map (fun c => (c.function, d + 1)))
            (setDepth m f d) = some m' := hrun
        have hreachf : ReachN cs roots d f := hS2 (f, d) (by simp)
        refine ih _ _ m' ?_ ?_ ?_ ?_ hrun2
        · intro g d0 hg
          by_cases hgf : g = f
          · subst hgf
            rw [lookupDepth_setDepth_self] at hg
            injection hg with hg
            subst hg
            exact hreachf
          · rw [lookupDepth_setDepth_ne m f d g hgf] at hg
            exact hS1 g d0 hg
        · intro fd hfd
          rcases List.mem_append.mp hfd with h1 | h1
          · exact hS2 fd (List.mem_cons_of_mem _ h1)
          · rcases List.mem_map.mp h1 with ⟨c, hc, hceq⟩
            subst hceq
            exact ⟨f, hreachf, List.mem_map_of_mem FunctionCall.function hc⟩
        · intro g d0 hg h hh
          by_cases hgf : g = f
          · subst hgf
            rw [lookupDepth_setDepth_self] at hg
            injection hg with hg
            subst hg
            right
            rcases List.mem_map.mp hh with ⟨c, hc, hceq⟩
            exact List.mem_append_right _
              (List.mem_map.mpr ⟨c, hc, by rw [hceq]⟩)
          · rw [lookupDepth_setDepth_ne m f d g hgf] at hg
            rcases hK g d0 hg h hh with ⟨e0, he0, hlh⟩ | h1
            · by_cases hhf : h = f
              · subst hhf
                rw [hlook] at hlh
                cases hlh
              · exact Or.inl ⟨e0, he0, by
                  rw [lookupDepth_setDepth_ne m f d h hhf]
                  exact hlh⟩
            · rcases List.mem_cons.mp h1 with h2 | h2
              · injection h2 with h2a h2b
                left
                rw [h2a]
                exact ⟨d, by omega, lookupDepth_setDepth_self m f d⟩
              · exact Or.inr (List.mem_append_left _ h2)
        · intro r hr
          rcases hR r hr with h1 | h1
          · by_cases hrf : r = f
            · rw [hrf, hlook] at h1
              cases h1
            · left
              rw [lookupDepth_setDepth_ne m f d r hrf]
              exact h1
          · rcases List.mem_cons.mp h1 with h2 | h2
            · injection h2 with h2a h2b
              subst h2a
              subst h2b
              left
              exact lookupDepth_setDepth_self m r 0
            · exact Or.inr (List.mem_append_left _ h2)
      -- some e
      case some =>
        by_cases hle : e ≤ d
        · have hrun2 : depthMapLoop cs n queue m = some m' := by
            have : (if e ≤ d then depthMapLoop cs n queue m
                else depthMapLoop cs n
                  (queue ++ (cs.calledBy f).map (fun c => (c.function, d + 1)))
                  (setDepth m f d)) = some m' := hrun
            rwa [if_pos hle] at this
          refine ih _ _ m' hS1
            (fun fd hfd => hS2 fd (List.mem_cons_of_mem _ hfd)) ?_ ?_ hrun2
          · intro g d0 hg h hh
            rcases hK g d0 hg h hh with h1 | h1
            · exact Or.inl h1
            · rcases List.mem_cons.mp h1 with h2 | h2
              · injection h2 with h2a h2b
                subst h2a
                left
                exact ⟨e, by omega, hlook⟩
              · exact Or.inr h2
          · intro r hr
            rcases hR r hr with h1 | h1
            · exact Or.inl h1
            · rcases List.mem_cons.mp h1 with h2 | h2
              · injection h2 with h2a h2b
                subst h2a
                left
                have : e = 0 := by omega
                subst this
                exact hlook
              · exact Or.inr h2
        · have hrun2 : depthMapLoop cs n
              (queue ++ (cs.calledBy f).map (fun c => (c.function, d + 1)))
              (setDepth m f d) = some m' := by
            have : (if e ≤ d then depthMapLoop cs n queue m
                else depthMapLoop cs n
                  (queue ++ (cs.calledBy f).map (fun c => (c.function, d + 1)))
                  (setDepth m f d)) = some m' := hrun
            rwa [if_neg hle] at this
          have hreachf : ReachN cs roots d f := hS2 (f, d) (by simp)
          refine ih _ _ m' ?_ ?_ ?_ ?_ hrun2
          · intro g d0 hg
            by_cases hgf : g = f
            · subst hgf
              rw [lookupDepth_setDepth_self] at hg
              injection hg with hg
              subst hg
              exact hreachf
            · rw [lookupDepth_setDepth_ne m f d g hgf] at hg
              exact hS1 g d0 hg
          · intro fd hfd
            rcases List.mem_append.mp hfd with h1 | h1
            · exact hS2 fd (List.mem_cons_of_mem _ h1)
            · rcases List.mem_map.mp h1 with ⟨c, hc, hceq⟩
              subst hceq
              exact ⟨f, hreachf, List.mem_map_of_mem FunctionCall.function hc⟩
          · intro g d0 hg h hh
            by_cases hgf : g = f
            · subst hgf
              rw [lookupDepth_setDepth_self] at hg
              injection hg with hg
              subst hg
              right
              rcases List.mem_map.mp hh with ⟨c, hc, hceq⟩
              exact List.mem_append_right _
                (List.mem_map.mpr ⟨c, hc, by rw [hceq]⟩)
            · rw [lookupDepth_setDepth_ne m f d g hgf] at hg
              rcases hK g d0 hg h hh with ⟨e0, he0, hlh⟩ | h1
              · by_cases hhf : h = f
                · rw [hhf, hlook] at hlh
                  injection hlh with hlh
                  left
                  rw [hhf]
                  exact ⟨d, by omega, lookupDepth_setDepth_self m f d⟩
                · exact Or.inl ⟨e0, he0, by
                    rw [lookupDepth_setDepth_ne m f d h hhf]
                    exact hlh⟩
              · rcases List.mem_cons.mp h1 with h2 | h2
                · injection h2 with h2a h2b
                  left
                  rw [h2a]
                  exact ⟨d, by omega, lookupDepth_setDepth_self m f d⟩
                · exact Or.inr (List.mem_append_left _ h2)
          · intro r hr
            rcases hR r hr with h1 | h1
            · by_cases hrf : r = f
              · rw [hrf, hlook] at h1
                injection h1 with h1
                omega
              · left
                rw [lookupDepth_setDepth_ne m f d r hrf]
                exact h1
            · rcases List.mem_cons.mp h1 with h2 | h2
              · injection h2 with h2a h2b
                subst h2a
                subst h2b
                left
                exact lookupDepth_setDepth_self m r 0
              · exact Or.inr (List.mem_append_left _ h2)

/-- From the closure properties of the finished depth map, every function
reachable in `d` callee edges is recorded with a depth of at most `d`. -/
theorem reach_lookup_le (cs : Cscope) (roots : List String)
    (m : List (String × Nat))
    (hK : ∀ f d, lookupDepth m f = some d → ∀ h ∈ calleeNames cs f,
      ∃ e, e ≤ d + 1 ∧ lookupDepth m h = some e)
    (hR : ∀ r ∈ roots, lookupDepth m r = some 0) :
    ∀ (d : Nat) (f : String), ReachN cs roots d f →
      ∃ e, e ≤ d ∧ lookupDepth m f = some e := by
  intro d
  induction d with
  | zero =>
    intro f hf
    exact ⟨0, Nat.le_refl 0, hR f hf⟩
  | succ n ih =>
    intro f hf
    obtain ⟨g, hg, hmem⟩ := hf
    obtain ⟨e, he, hlg⟩ := ih g hg
    obtain ⟨e2, he2, hlf⟩ := hK g e hlg f hmem
    exact ⟨e2, by omega, hlf⟩

/-- Claim C8: whenever `get_function_depth_map` finishes within its
iteration bound, every recorded function's value is the minimum number of
callee edges from some root to that function; in particular a recorded
depth is never above any depth at which the function can be reached, so a
later, larger proposal can never replace it. -/
theorem c8_depth_map_minimal (cs : Cscope) (roots : List String)
    (fuel : Nat) (m : List (String × Nat)) (f : String) (d : Nat)
    (hrun : get_function_depth_map cs roots fuel = some m)
    (hlook : lookupDepth m f = some d) :
    ReachN cs roots d f ∧ ∀ e, ReachN cs roots e f → d ≤ e := by
  have hspec := depthMapLoop_spec cs roots fuel
    (roots.map (fun r => (r, 0))) [] m
    (by intro g e hg; cases hg)
    (by
      intro fd hfd
      rcases List.mem_map.mp hfd with ⟨r, hr, hre⟩
      subst hre
      exact hr)
    (by intro g e hg; cases hg)
    (by
      intro r hr
      exact Or.inr (List.mem_map_of_mem _ hr))
    hrun
  obtain ⟨hS, hK, hR⟩ := hspec
  refine ⟨hS f d hlook, ?_⟩
  intro e hreach
  obtain ⟨e2, he2, hlook2⟩ := reach_lookup_le cs roots m hK hR e f hreach
  rw [hlook] at hlook2
  injection hlook2 with hlook2
  omega

/-- Witness for C8 on a concrete graph: `B` is recorded at its true
minimum depth 1 from root `A`. -/
theorem c8_witness : ReachN exCsT ["A"] 1 "B" :=
  (c8_depth_map_minimal exCsT ["A"] 10 [("A", 0), ("B", 1)] "B" 1
    (by decide) (by decide)).1
